import Mathlib

/-!
Verification of the `StripedHashMap` concurrent hash map (package `db.collections`).

The map is embedded shallowly and sequentially: the bucket table is a list of
bucket chains (a chain is a list of nodes, head first, exactly as the Java
singly linked `Node` chains), values are `Option V` with `none` playing the
role of Java `null`, and keys passed to the public operations are `Option K`
so that the null-key checks of the source can be stated.  Lock acquisition and
release have no sequential content and are erased; everything else follows the
Java source line by line.
-/

set_option autoImplicit false

deriving instance DecidableEq for Except

namespace DbCollections

/-- Model of a Java `float` as far as the constructor and the growth threshold
need it: NaN, the two infinities, or an exact finite value `num / den`
(`den > 0` for every value that a float can denote).  The load factors
exercised here (for example `0.75f = 3/4`) are dyadic, so all float
arithmetic performed on them by the source is exact and this model is
faithful.  The value is carried as an explicit fraction rather than a `ℚ` so
that every operation below evaluates by kernel reduction. -/
inductive JFloat where
  | nan : JFloat
  | posInf : JFloat
  | negInf : JFloat
  | fin : Int → Nat → JFloat
deriving DecidableEq

/-- The rational value denoted by a finite `JFloat`, for specification
statements (`0` for the non-finite values, which never reach arithmetic
in the statements using this). -/
def JFloat.val : JFloat → ℚ
  | .fin num den => (num : ℚ) / (den : ℚ)
  | _ => 0

/-- Java `f <= 0.0f`.  Every comparison with NaN is false. -/
def JFloat.leZero : JFloat → Bool
  | .nan => false
  | .posInf => false
  | .negInf => true
  | .fin num _ => decide (num ≤ 0)

/-- Java `Float.isNaN(f)`. -/
def JFloat.isNaN : JFloat → Bool
  | .nan => true
  | .posInf => false
  | .negInf => false
  | .fin _ _ => false

/-- Java `(int)` cast of the exact finite value `num / den` (`den > 0`):
truncate toward zero and clamp to the `int` range. -/
def jIntOfFrac (num : Int) (den : Nat) : Int :=
  if num ≤ -2147483648 * (den : Int) then -2147483648
  else if 2147483647 * (den : Int) ≤ num then 2147483647
  else num.tdiv (den : Int)

/-- Normalize an integer to the signed 32-bit value with the same low 32 bits,
the result of any overflowing Java `int` operation. -/
def jint (n : Int) : Int :=
  let m := n % 4294967296
  if m < 2147483648 then m else m - 4294967296

/-- `⌊log₂ n⌋` computed by structural recursion on an explicit fuel so that
the kernel can evaluate it; `log2Fuel fuel n = Nat.log2 n` whenever
`n < 2 ^ fuel` (proved below), and 32 units of fuel cover every Java `int`
bit pattern. -/
def log2Fuel : Nat → Nat → Nat
  | 0, _ => 0
  | fuel + 1, n => if 2 ≤ n then log2Fuel fuel (n / 2) + 1 else 0

/-- Java `Integer.highestOneBit`: `2 ^ ⌊log₂ x⌋` for positive `x`, `0` for
`0`, and the sign bit `-2^31` for negative `x` (modelled from the JDK
contract of this library routine; positive Java ints fit in 32 bits of
fuel). -/
def highestOneBit (x : Int) : Int :=
  if x = 0 then 0
  else if 0 < x then 2 ^ log2Fuel 32 x.toNat
  else -2147483648

theorem log2Fuel_eq : ∀ (fuel n : Nat), n < 2 ^ fuel → log2Fuel fuel n = Nat.log2 n := by
  intro fuel
  induction fuel with
  | zero =>
    intro n h
    have hn : n = 0 := by simpa using h
    subst hn
    simp [log2Fuel, Nat.log2]
  | succ f ih =>
    intro n h
    rw [log2Fuel, Nat.log2]
    split
    · congr 1
      refine ih (n / 2) ?_
      have hlt : n < 2 ^ f * 2 := by
        rw [pow_succ] at h
        exact h
      omega
    · rfl

/-- `StripedHashMap.roundUpToPowerOfTwo`:
`Math.max(2, Integer.highestOneBit(value - 1) << 1)`, the shift performed on
32-bit ints (hence `jint`). -/
def roundUpToPowerOfTwo (value : Int) : Int :=
  max 2 (jint (highestOneBit (value - 1) * 2))

/-- `StripedHashMap.spread`: `h ^ (h >>> 16)` on the 32-bit pattern of the raw
hash.  The pattern is kept as a `Nat` below `2^32`. -/
def spread (h : Int) : Nat :=
  let b := (h % 4294967296).toNat
  b ^^^ (b >>> 16)

/-- `StripedHashMap.indexFor`: `hash & (length - 1)`. -/
def indexFor (hash len : Nat) : Nat :=
  hash &&& (len - 1)

/-- `StripedHashMap.stripeFor`: `hash & (numStripes - 1)`. -/
def stripeFor (hash ns : Nat) : Nat :=
  hash &&& (ns - 1)

/-- One chain node: the spread hash, the (non-null) key, and the nullable
value. -/
structure Node (K V : Type) where
  hash : Nat
  key : K
  value : Option V
deriving DecidableEq

/-- The map state: the bucket table (`capacity = table.length`), the stripe
count, the load factor and the live counter.  The stripe lock bank itself has
no sequential content beyond its size. -/
structure StripedHashMap (K V : Type) where
  table : List (List (Node K V))
  numStripes : Nat
  loadFactor : JFloat
  size : Int
deriving DecidableEq

namespace StripedHashMap

variable {K V : Type} [DecidableEq K] [DecidableEq V]

/-- `StripedHashMap.needsResize`: `currentSize > (int) (capacity * loadFactor)`,
the multiplication and cast performed in float arithmetic. -/
def needsResize (capacity : Nat) (currentSize : Int) (lf : JFloat) : Bool :=
  match lf with
  | .nan => decide (currentSize > 0)
  | .posInf => decide (currentSize > 2147483647)
  | .negInf => decide (currentSize > -2147483648)
  | .fin num den => decide (currentSize > jIntOfFrac ((capacity : Int) * num) den)

/-- The relink loop of `resizeIfNeeded`: prepend one node to its bucket
`indexFor(node.hash, newCapacity)` of the partially built new table. -/
def rehashNode (newCap : Nat) (t : List (List (Node K V))) (n : Node K V) :
    List (List (Node K V)) :=
  let i := indexFor n.hash newCap
  t.set i (n :: t.getD i [])

/-- The table rebuild of `resizeIfNeeded`: double the capacity and walk every
chain of the old table front to back, relinking each node. -/
def resizeTable (old : List (List (Node K V))) : List (List (Node K V)) :=
  let newCap := old.length * 2
  old.foldl (fun acc bucket => bucket.foldl (rehashNode newCap) acc)
    (List.replicate newCap [])

/-- The state after the rebuild step of `resizeIfNeeded` has run. -/
def afterResize (m : StripedHashMap K V) : StripedHashMap K V :=
  { m with table := resizeTable m.table }

/-- `StripedHashMap.resizeIfNeeded`: re-check the growth condition (another
thread may have resized) and rebuild the table if it still holds. -/
def resizeIfNeeded (m : StripedHashMap K V) : StripedHashMap K V :=
  if needsResize m.table.length m.size m.loadFactor then afterResize m else m

/-- The chain scan shared by `get`/`containsKey` and the lookup phase of the
mutating operations: first node with `node.hash == hash && Objects.equals(node.key, key)`. -/
def bucketFind (hash : Nat) (k : K) : List (Node K V) → Option (Node K V)
  | [] => none
  | n :: rest =>
      if n.hash = hash ∧ n.key = k then some n else bucketFind hash k rest

/-- The chain loop of `put`: overwrite the value of the first matching node in
place, returning the previous value and the updated chain, or `none` when no
node matches. -/
def putLoop (hash : Nat) (k : K) (v : Option V) :
    List (Node K V) → Option (Option V × List (Node K V))
  | [] => none
  | n :: rest =>
      if n.hash = hash ∧ n.key = k then some (n.value, { n with value := v } :: rest)
      else match putLoop hash k v rest with
        | some (old, rest') => some (old, n :: rest')
        | none => none

/-- The chain loop of `remove`: unlink the first matching node, returning the
previous value and the shortened chain, or `none` when no node matches. -/
def removeLoop (hash : Nat) (k : K) :
    List (Node K V) → Option (Option V × List (Node K V))
  | [] => none
  | n :: rest =>
      if n.hash = hash ∧ n.key = k then some (n.value, rest)
      else match removeLoop hash k rest with
        | some (old, rest') => some (old, n :: rest')
        | none => none

/-- The chain loop of `replace`: on the first matching node, update the value
only when it equals the expected old value; report whether an update happened
together with the resulting chain.  `none` when no node matches. -/
def replaceLoop (hash : Nat) (k : K) (oldValue newValue : Option V) :
    List (Node K V) → Option (Bool × List (Node K V))
  | [] => none
  | n :: rest =>
      if n.hash = hash ∧ n.key = k then
        if n.value = oldValue then some (true, { n with value := newValue } :: rest)
        else some (false, n :: rest)
      else match replaceLoop hash k oldValue newValue rest with
        | some (b, rest') => some (b, n :: rest')
        | none => none

section Ops

variable (hashCode : K → Int)

/-- `StripedHashMap.put`.  A `none` key is the Java `null` key and yields the
`requireNonNull` error before anything else; the map component of the result
is the state after the call. -/
def put (key : Option K) (value : Option V) (m : StripedHashMap K V) :
    Except Unit (Option V) × StripedHashMap K V :=
  match key with
  | none => (.error (), m)
  | some k =>
    let t := m.table
    let hash := spread (hashCode k)
    let index := indexFor hash t.length
    let bucket := t.getD index []
    match putLoop hash k value bucket with
    | some (old, bucket') => (.ok old, { m with table := t.set index bucket' })
    | none =>
      let t' := t.set index (Node.mk hash k value :: bucket)
      let newSize := m.size + 1
      let m' := { m with table := t', size := newSize }
      if needsResize t.length newSize m.loadFactor then (.ok none, resizeIfNeeded m')
      else (.ok none, m')

/-- `StripedHashMap.get`. -/
def get (key : Option K) (m : StripedHashMap K V) : Except Unit (Option V) :=
  match key with
  | none => .error ()
  | some k =>
    let hash := spread (hashCode k)
    let index := indexFor hash m.table.length
    match bucketFind hash k (m.table.getD index []) with
    | some n => .ok n.value
    | none => .ok none

/-- `StripedHashMap.remove`. -/
def remove (key : Option K) (m : StripedHashMap K V) :
    Except Unit (Option V) × StripedHashMap K V :=
  match key with
  | none => (.error (), m)
  | some k =>
    let t := m.table
    let hash := spread (hashCode k)
    let index := indexFor hash t.length
    match removeLoop hash k (t.getD index []) with
    | some (old, bucket') =>
        (.ok old, { m with table := t.set index bucket', size := m.size - 1 })
    | none => (.ok none, m)

/-- `StripedHashMap.containsKey`: `get(key) != null`. -/
def containsKey (key : Option K) (m : StripedHashMap K V) : Except Unit Bool :=
  match get hashCode key m with
  | .error e => .error e
  | .ok v => .ok (v ≠ none)

/-- `StripedHashMap.clear`: null out every slot of the current table and reset
the counter. -/
def clear (m : StripedHashMap K V) : StripedHashMap K V :=
  { m with table := List.replicate m.table.length [], size := 0 }

/-- `StripedHashMap.putIfAbsent`. -/
def putIfAbsent (key : Option K) (value : Option V) (m : StripedHashMap K V) :
    Except Unit (Option V) × StripedHashMap K V :=
  match key with
  | none => (.error (), m)
  | some k =>
    let t := m.table
    let hash := spread (hashCode k)
    let index := indexFor hash t.length
    let bucket := t.getD index []
    match bucketFind hash k bucket with
    | some n => (.ok n.value, m)
    | none =>
      let t' := t.set index (Node.mk hash k value :: bucket)
      let newSize := m.size + 1
      let m' := { m with table := t', size := newSize }
      if needsResize t.length newSize m.loadFactor then (.ok none, resizeIfNeeded m')
      else (.ok none, m')

/-- `StripedHashMap.replace(key, oldValue, newValue)`. -/
def replace (key : Option K) (oldValue newValue : Option V)
    (m : StripedHashMap K V) : Except Unit Bool × StripedHashMap K V :=
  match key with
  | none => (.error (), m)
  | some k =>
    let t := m.table
    let hash := spread (hashCode k)
    let index := indexFor hash t.length
    match replaceLoop hash k oldValue newValue (t.getD index []) with
    | some (b, bucket') => (.ok b, { m with table := t.set index bucket' })
    | none => (.ok false, m)

/-- `StripedHashMap.computeIfAbsent`.  The third component counts how many
times `mappingFunction.apply` runs during the call (the source invokes it at
exactly one site, in the not-found branch). -/
def computeIfAbsent (key : Option K) (f : K → Option V)
    (m : StripedHashMap K V) :
    Except Unit (Option V) × StripedHashMap K V × Nat :=
  match key with
  | none => (.error (), m, 0)
  | some k =>
    let t := m.table
    let hash := spread (hashCode k)
    let index := indexFor hash t.length
    let bucket := t.getD index []
    match bucketFind hash k bucket with
    | some n => (.ok n.value, m, 0)
    | none =>
      let newValue := f k
      let t' := t.set index (Node.mk hash k newValue :: bucket)
      let newSize := m.size + 1
      let m' := { m with table := t', size := newSize }
      if needsResize t.length newSize m.loadFactor then (.ok newValue, resizeIfNeeded m', 1)
      else (.ok newValue, m', 1)

/-- The `StripedHashMap(int, float, int)` constructor: validation, capacity
and stripe rounding, empty table.  `.error ()` is the
`IllegalArgumentException`. -/
def construct (initialCapacity : Int) (loadFactor : JFloat) (numStripes : Int) :
    Except Unit (StripedHashMap K V) :=
  if initialCapacity ≤ 0 then .error ()
  else if loadFactor.leZero || loadFactor.isNaN then .error ()
  else if numStripes ≤ 0 then .error ()
  else
    let capacity := (roundUpToPowerOfTwo initialCapacity).toNat
    let ns := if highestOneBit numStripes = numStripes then numStripes.toNat
      else (roundUpToPowerOfTwo numStripes).toNat
    .ok { table := List.replicate capacity [], numStripes := ns,
          loadFactor := loadFactor, size := 0 }

end Ops

/-- The bucket-index loop of `forEach` for one stripe:
`for (index = stripe; index < cap; index += ns)`.  Structural recursion on an
explicit fuel (`cap` steps always suffice because `ns ≥ 1`). -/
def stripeIndicesAux : Nat → Nat → Nat → Nat → List Nat
  | 0, _, _, _ => []
  | fuel + 1, cap, ns, i =>
      if i < cap then i :: stripeIndicesAux fuel cap ns (i + ns) else []

/-- The bucket indices visited by `forEach` for one stripe. -/
def stripeIndices (cap ns stripe : Nat) : List Nat :=
  stripeIndicesAux cap cap ns stripe

/-- `StripedHashMap.forEach`, recorded as the sequence of `(key, value)` pairs
passed to the visitor, in visit order: stripe by stripe, within a stripe every
bucket index congruent to the stripe modulo `numStripes`, within a bucket the
chain front to back. -/
def forEachVisits (m : StripedHashMap K V) : List (K × Option V) :=
  (List.range m.numStripes).flatMap fun stripe =>
    (stripeIndices m.table.length m.numStripes stripe).flatMap fun index =>
      (m.table.getD index []).map fun n => (n.key, n.value)

end StripedHashMap

/-! ### List utilities

Facts about `List.set`, `List.flatten` and `List.foldl` used to reason about
the bucket table. -/

theorem foldl_invariant {α β : Type} (P : α → Prop) (f : α → β → α)
    (l : List β) (acc : α) (h0 : P acc) (hstep : ∀ a b, P a → P (f a b)) :
    P (l.foldl f acc) := by
  induction l generalizing acc with
  | nil => exact h0
  | cons x xs ih => exact ih _ (hstep _ _ h0)

theorem flatten_set_perm {α : Type} (t : List (List α)) (i : Nat) (b : List α)
    (h : i < t.length) :
    (t.set i b).flatten.Perm (b ++ (t.set i []).flatten) := by
  induction t generalizing i with
  | nil => simp at h
  | cons x xs ih =>
    cases i with
    | zero => simp
    | succ j =>
      simp only [List.set_cons_succ, List.flatten_cons]
      have hj : j < xs.length := by simpa using h
      refine ((ih j hj).append_left x).trans ?_
      rw [← List.append_assoc, ← List.append_assoc]
      exact List.perm_append_comm.append_right _

theorem set_getD_self {α : Type} (t : List (List α)) (i : Nat)
    (h : i < t.length) : t.set i (t.getD i []) = t := by
  induction t generalizing i with
  | nil => simp at h
  | cons x xs ih =>
    cases i with
    | zero => simp
    | succ j =>
      have hj : j < xs.length := by simpa using h
      simp only [List.getD_cons_succ, List.set_cons_succ]
      rw [ih j hj]

theorem flatten_decomp_perm {α : Type} (t : List (List α)) (i : Nat)
    (h : i < t.length) :
    t.flatten.Perm (t.getD i [] ++ (t.set i []).flatten) := by
  have := flatten_set_perm t i (t.getD i []) h
  rwa [set_getD_self t i h] at this

theorem mem_getD_mem_flatten {α : Type} {t : List (List α)} {i : Nat} {a : α}
    (h : a ∈ t.getD i []) : a ∈ t.flatten := by
  by_cases hi : i < t.length
  · rw [List.getD_eq_getElem t [] hi] at h
    exact List.mem_flatten.2 ⟨t[i], List.getElem_mem hi, h⟩
  · rw [List.getD_eq_default t [] (Nat.le_of_not_lt hi)] at h
    cases h

theorem countP_getD_le_flatten {α : Type} (t : List (List α)) (i : Nat)
    (p : α → Bool) : (t.getD i []).countP p ≤ t.flatten.countP p := by
  by_cases hi : i < t.length
  · have := (flatten_decomp_perm t i hi).countP_eq p
    rw [this, List.countP_append]
    exact Nat.le_add_right _ _
  · rw [List.getD_eq_default t [] (Nat.le_of_not_lt hi)]
    exact Nat.zero_le _

theorem flatten_replicate_nil {α : Type} (n : Nat) :
    (List.replicate n ([] : List α)).flatten = [] := by
  induction n with
  | zero => rfl
  | succ k ih => simpa [List.replicate_succ]

theorem count_le_one_eq {α : Type} {p : α → Bool} {l : List α}
    (h : l.countP p ≤ 1) {a b : α} (ha : a ∈ l) (hpa : p a = true)
    (hb : b ∈ l) (hpb : p b = true) : a = b := by
  induction l with
  | nil => cases ha
  | cons x xs ih =>
    rcases List.mem_cons.1 ha with rfl | ha' <;>
      rcases List.mem_cons.1 hb with rfl | hb'
    · rfl
    · exfalso
      have h1 : 0 < xs.countP p := List.countP_pos_iff.2 ⟨b, hb', hpb⟩
      rw [List.countP_cons_of_pos p xs hpa] at h; omega
    · exfalso
      have h1 : 0 < xs.countP p := List.countP_pos_iff.2 ⟨a, ha', hpa⟩
      rw [List.countP_cons_of_pos p xs hpb] at h; omega
    · rw [List.countP_cons] at h
      exact ih (by omega) ha' hb'

namespace StripedHashMap

variable {K V : Type} [DecidableEq K] [DecidableEq V]

/-! ### Bucket-chain lemmas -/

theorem indexFor_lt {len : Nat} (hash : Nat) (h : 0 < len) :
    indexFor hash len < len :=
  Nat.lt_of_le_of_lt (Nat.and_le_right) (by omega)

theorem bucketFind_some {hash : Nat} {k : K} {b : List (Node K V)}
    {n : Node K V} (h : bucketFind hash k b = some n) :
    n ∈ b ∧ n.hash = hash ∧ n.key = k := by
  induction b with
  | nil => simp [bucketFind] at h
  | cons x xs ih =>
    rw [bucketFind] at h
    split at h
    · rename_i hx
      injection h with h'
      subst h'
      exact ⟨List.mem_cons_self _ _, hx.1, hx.2⟩
    · have := ih h
      exact ⟨List.mem_cons_of_mem x this.1, this.2⟩

theorem bucketFind_none {hash : Nat} {k : K} {b : List (Node K V)}
    (h : bucketFind hash k b = none) :
    ∀ n ∈ b, ¬(n.hash = hash ∧ n.key = k) := by
  induction b with
  | nil => intro n hn; cases hn
  | cons x xs ih =>
    rw [bucketFind] at h
    split at h
    · cases h
    · rename_i hx
      intro n hn
      rcases List.mem_cons.1 hn with rfl | hn'
      · exact hx
      · exact ih h n hn'

theorem bucketFind_of_unique {hash : Nat} {k : K} {b : List (Node K V)}
    {n : Node K V}
    (huniq : b.countP (fun a => decide (a.key = k)) ≤ 1)
    (hn : n ∈ b) (hh : n.hash = hash) (hk : n.key = k) :
    bucketFind hash k b = some n := by
  induction b with
  | nil => cases hn
  | cons x xs ih =>
    rw [bucketFind]
    split
    · rename_i hx
      rcases List.mem_cons.1 hn with rfl | hn'
      · rfl
      · exfalso
        have h1 : 0 < xs.countP (fun a => decide (a.key = k)) :=
          List.countP_pos_iff.2 ⟨n, hn', by simpa using hk⟩
        rw [List.countP_cons_of_pos _ xs (by simpa using hx.2)] at huniq
        omega
    · rename_i hx
      rcases List.mem_cons.1 hn with rfl | hn'
      · exact absurd ⟨hh, hk⟩ hx
      · refine ih ?_ hn'
        rw [List.countP_cons] at huniq
        omega

theorem putLoop_none_iff {hash : Nat} {k : K} {v : Option V}
    {b : List (Node K V)} :
    putLoop hash k v b = none ↔ bucketFind hash k b = none := by
  induction b with
  | nil => simp [putLoop, bucketFind]
  | cons x xs ih =>
    rw [putLoop, bucketFind]
    split
    · simp
    · cases h : putLoop hash k v xs with
      | none => simpa [h] using ih.1 h ▸ (by simp [ih.1 h])
      | some p => simp [h, (by simpa [h] using ih.not.1 (by simp [h]) : ¬bucketFind hash k xs = none)]

theorem putLoop_some_spec {hash : Nat} {k : K} {v : Option V}
    {b b' : List (Node K V)} {old : Option V}
    (h : putLoop hash k v b = some (old, b')) :
    b'.map Node.key = b.map Node.key ∧
    b'.map Node.hash = b.map Node.hash ∧
    (∀ a ∈ b', (a.hash = hash ∧ a.key = k ∧ a.value = v) ∨ a ∈ b) ∧
    bucketFind hash k b' = some (Node.mk hash k v) := by
  induction b generalizing b' old with
  | nil => simp [putLoop] at h
  | cons x xs ih =>
    rw [putLoop] at h
    split at h
    · rename_i hx
      injection h with h'
      injection h' with h1 h2
      subst h2
      refine ⟨rfl, rfl, ?_, ?_⟩
      · intro a ha
        rcases List.mem_cons.1 ha with rfl | ha'
        · exact Or.inl ⟨hx.1, hx.2, rfl⟩
        · exact Or.inr (List.mem_cons_of_mem x ha')
      · rw [bucketFind]
        rw [if_pos ⟨hx.1, hx.2⟩]
        have : x.hash = hash ∧ x.key = k := hx
        congr 1
        cases x
        simp_all
    · rename_i hx
      cases hrec : putLoop hash k v xs with
      | none => rw [hrec] at h; cases h
      | some p =>
        obtain ⟨o, rest'⟩ := p
        rw [hrec] at h
        injection h with h'
        injection h' with h1 h2
        subst h2
        obtain ⟨hk', hh', hmem, hfind⟩ := ih hrec
        refine ⟨by simp [hk'], by simp [hh'], ?_, ?_⟩
        · intro a ha
          rcases List.mem_cons.1 ha with rfl | ha'
          · exact Or.inr (List.mem_cons_self _ _)
          · rcases hmem a ha' with h' | h'
            · exact Or.inl h'
            · exact Or.inr (List.mem_cons_of_mem x h')
        · rw [bucketFind, if_neg hx]
          exact hfind

theorem removeLoop_none_iff {hash : Nat} {k : K} {b : List (Node K V)} :
    removeLoop hash k b = none ↔ bucketFind hash k b = none := by
  induction b with
  | nil => simp [removeLoop, bucketFind]
  | cons x xs ih =>
    rw [removeLoop, bucketFind]
    split
    · simp
    · cases h : removeLoop hash k xs with
      | none => simp [h, ih.1 h]
      | some p => simp [h, (by simpa [h] using ih.not.1 (by simp [h]) : ¬bucketFind hash k xs = none)]

theorem removeLoop_some_spec {hash : Nat} {k : K} {b b' : List (Node K V)}
    {old : Option V} (h : removeLoop hash k b = some (old, b')) :
    b'.Sublist b ∧ b.length = b'.length + 1 ∧
    ∃ n ∈ b, n.hash = hash ∧ n.key = k ∧ n.value = old := by
  induction b generalizing b' old with
  | nil => simp [removeLoop] at h
  | cons x xs ih =>
    rw [removeLoop] at h
    split at h
    · rename_i hx
      injection h with h'
      injection h' with h1 h2
      subst h2
      exact ⟨List.sublist_cons_self x xs, by simp, x, List.mem_cons_self _ _,
        hx.1, hx.2, h1⟩
    · cases hrec : removeLoop hash k xs with
      | none => rw [hrec] at h; cases h
      | some p =>
        obtain ⟨o, rest'⟩ := p
        rw [hrec] at h
        injection h with h'
        injection h' with h1 h2
        subst h2
        obtain ⟨hsub, hlen, n, hn, hspec⟩ := ih hrec
        subst h1
        exact ⟨hsub.cons₂ x, by simp [hlen], n, List.mem_cons_of_mem x hn, hspec⟩

theorem replaceLoop_some_spec {hash : Nat} {k : K} {ov nv : Option V}
    {b b' : List (Node K V)} {r : Bool}
    (h : replaceLoop hash k ov nv b = some (r, b')) :
    b'.map Node.key = b.map Node.key ∧
    b'.map Node.hash = b.map Node.hash ∧
    (∀ a ∈ b', (a.hash = hash ∧ a.key = k) ∨ a ∈ b) ∧
    b'.length = b.length := by
  induction b generalizing b' r with
  | nil => simp [replaceLoop] at h
  | cons x xs ih =>
    rw [replaceLoop] at h
    split at h
    · rename_i hx
      split at h <;>
      · injection h with h'
        injection h' with h1 h2
        subst h2
        refine ⟨rfl, rfl, ?_, rfl⟩
        intro a ha
        rcases List.mem_cons.1 ha with rfl | ha'
        · exact Or.inl ⟨hx.1, hx.2⟩
        · exact Or.inr (List.mem_cons_of_mem x ha')
    · cases hrec : replaceLoop hash k ov nv xs with
      | none => rw [hrec] at h; cases h
      | some p =>
        obtain ⟨o, rest'⟩ := p
        rw [hrec] at h
        injection h with h'
        injection h' with h1 h2
        subst h2
        obtain ⟨hk', hh', hmem, hlen⟩ := ih hrec
        refine ⟨by simp [hk'], by simp [hh'], ?_, by simp [hlen]⟩
        intro a ha
        rcases List.mem_cons.1 ha with rfl | ha'
        · exact Or.inr (List.mem_cons_self _ _)
        · rcases hmem a ha' with h' | h'
          · exact Or.inl h'
          · exact Or.inr (List.mem_cons_of_mem x h')

/-! ### The table invariant

`WF` is the sequential content of the documented invariants I1–I3 plus the
placement facts: the table is nonempty, every node sits in the bucket its
spread hash selects, every node's stored hash is the spread of its key's raw
hash, at most one node per key exists in the whole table (I2), and the live
counter equals the number of reachable nodes (I3). -/

def WF (hashCode : K → Int) (m : StripedHashMap K V) : Prop :=
  0 < m.table.length ∧
  (∀ i (h : i < m.table.length), ∀ n ∈ m.table[i],
    indexFor n.hash m.table.length = i) ∧
  (∀ n ∈ m.table.flatten, n.hash = spread (hashCode n.key)) ∧
  (m.table.flatten.map Node.key).Nodup ∧
  m.size = (m.table.flatten.length : Int)

instance WF.instDecidable (hashCode : K → Int) (m : StripedHashMap K V) :
    Decidable (WF hashCode m) := by
  unfold WF
  infer_instance

theorem key_countP_le_one {hashCode : K → Int} {m : StripedHashMap K V}
    (hWF : WF hashCode m) (k : K) :
    m.table.flatten.countP (fun n => decide (n.key = k)) ≤ 1 := by
  have hnodup := hWF.2.2.2.1
  have hcount := List.nodup_iff_count_le_one.1 hnodup k
  rw [List.count_eq_countP, List.countP_map] at hcount
  exact le_trans (le_of_eq (by rfl)) hcount

/-! ### Resize lemmas -/

theorem rehashNode_length (newCap : Nat) (t : List (List (Node K V)))
    (n : Node K V) : (rehashNode newCap t n).length = t.length := by
  simp [rehashNode]

theorem rehashNode_flatten_perm {newCap : Nat} {t : List (List (Node K V))}
    (n : Node K V) (h : indexFor n.hash newCap < t.length) :
    (rehashNode newCap t n).flatten.Perm (n :: t.flatten) := by
  unfold rehashNode
  refine (flatten_set_perm t _ _ h).trans ?_
  simp only [List.cons_append]
  exact ((flatten_decomp_perm t _ h).symm).cons n

theorem rehashNode_placed {newCap : Nat} {t : List (List (Node K V))}
    (hP : ∀ i (h : i < t.length), ∀ n ∈ t[i], indexFor n.hash newCap = i)
    (x : Node K V) :
    ∀ i (h : i < (rehashNode newCap t x).length),
      ∀ n ∈ (rehashNode newCap t x)[i], indexFor n.hash newCap = i := by
  intro i hi n hn
  have hi' : i < t.length := by simpa [rehashNode] using hi
  unfold rehashNode at hn
  rw [List.getElem_set] at hn
  split at hn
  · rename_i he
    rcases List.mem_cons.1 hn with rfl | hn'
    · exact he
    · have hlt : indexFor x.hash newCap < t.length := he ▸ hi'
      rw [List.getD_eq_getElem t [] hlt] at hn'
      exact he ▸ hP _ hlt n hn'
  · exact hP i hi' n hn

theorem bucket_fold_spec (newCap : Nat) (hpos : 0 < newCap)
    (bucket : List (Node K V)) :
    ∀ acc : List (List (Node K V)), acc.length = newCap →
      (bucket.foldl (rehashNode newCap) acc).length = newCap ∧
      (bucket.foldl (rehashNode newCap) acc).flatten.Perm
        (bucket ++ acc.flatten) := by
  induction bucket with
  | nil => intro acc h; exact ⟨h, by simp⟩
  | cons x xs ih =>
    intro acc hlen
    simp only [List.foldl_cons]
    have hidx : indexFor x.hash newCap < acc.length := by
      rw [hlen]; exact indexFor_lt _ hpos
    have h1 := rehashNode_flatten_perm x hidx
    have h2 : (rehashNode newCap acc x).length = acc.length :=
      rehashNode_length newCap acc x
    obtain ⟨l, p⟩ := ih (rehashNode newCap acc x) (by rw [h2, hlen])
    refine ⟨l, p.trans ?_⟩
    refine (h1.append_left xs).trans ?_
    exact List.perm_middle

theorem outer_fold_spec (newCap : Nat) (hpos : 0 < newCap)
    (bs : List (List (Node K V))) :
    ∀ acc : List (List (Node K V)), acc.length = newCap →
      (bs.foldl (fun a b => b.foldl (rehashNode newCap) a) acc).length = newCap ∧
      (bs.foldl (fun a b => b.foldl (rehashNode newCap) a) acc).flatten.Perm
        (bs.flatten ++ acc.flatten) := by
  induction bs with
  | nil => intro acc h; exact ⟨h, by simp⟩
  | cons b bs ih =>
    intro acc hlen
    simp only [List.foldl_cons]
    obtain ⟨l1, p1⟩ := bucket_fold_spec newCap hpos b acc hlen
    obtain ⟨l2, p2⟩ := ih (b.foldl (rehashNode newCap) acc) l1
    refine ⟨l2, p2.trans ?_⟩
    refine ((p1.append_left bs.flatten).trans ?_)
    rw [List.flatten_cons, ← List.append_assoc]
    exact List.perm_append_comm.append_right acc.flatten

theorem resizeTable_length (t : List (List (Node K V))) :
    (resizeTable t).length = t.length * 2 := by
  by_cases h : 0 < t.length * 2
  · exact (outer_fold_spec (t.length * 2) h t _ (by simp)).1
  · have : t.length = 0 := by omega
    have ht : t = [] := List.length_eq_zero.1 this
    subst ht; rfl

theorem resizeTable_flatten_perm {t : List (List (Node K V))}
    (h : 0 < t.length) : (resizeTable t).flatten.Perm t.flatten := by
  have hpos : 0 < t.length * 2 := by omega
  have := (outer_fold_spec (t.length * 2) hpos t
    (List.replicate (t.length * 2) []) (by simp)).2
  rw [flatten_replicate_nil, List.append_nil] at this
  exact this

theorem resizeTable_placed (t : List (List (Node K V))) :
    ∀ i (h : i < (resizeTable t).length), ∀ n ∈ (resizeTable t)[i],
      indexFor n.hash (t.length * 2) = i := by
  unfold resizeTable
  refine foldl_invariant
    (fun acc : List (List (Node K V)) => ∀ i (h : i < acc.length),
      ∀ n ∈ acc[i], indexFor n.hash (t.length * 2) = i) _ t _ ?_ ?_
  · intro i hi n hn
    rw [List.getElem_replicate] at hn
    cases hn
  · intro acc b hacc
    exact foldl_invariant
      (fun acc2 : List (List (Node K V)) => ∀ i (h : i < acc2.length),
        ∀ n ∈ acc2[i], indexFor n.hash (t.length * 2) = i)
      (rehashNode (t.length * 2)) b acc hacc
      (fun a x ha => rehashNode_placed ha x)

theorem WF_afterResize {hashCode : K → Int} {m : StripedHashMap K V}
    (hWF : WF hashCode m) : WF hashCode (afterResize m) := by
  obtain ⟨hpos, hplaced, hhashed, hnodup, hsize⟩ := hWF
  have hperm := resizeTable_flatten_perm (t := m.table) hpos
  have hlen := resizeTable_length (t := m.table)
  refine ⟨?_, ?_, ?_, ?_, ?_⟩
  · simpa [afterResize, hlen] using by omega
  · intro i hi n hn
    have := resizeTable_placed m.table i (by simpa [afterResize] using hi) n
      (by simpa [afterResize] using hn)
    simpa [afterResize, hlen] using this
  · intro n hn
    exact hhashed n (hperm.mem_iff.1 (by simpa [afterResize] using hn))
  · have := (hperm.map Node.key).nodup_iff.2 hnodup
    simpa [afterResize] using this
  · simpa [afterResize, hperm.length_eq] using hsize

theorem WF_resizeIfNeeded {hashCode : K → Int} {m : StripedHashMap K V}
    (hWF : WF hashCode m) : WF hashCode (resizeIfNeeded m) := by
  unfold resizeIfNeeded
  split
  · exact WF_afterResize hWF
  · exact hWF

/-! ### Characterization of `get` on well-formed states -/

theorem get_of_mem_flatten (hashCode : K → Int) {m : StripedHashMap K V}
    (hWF : WF hashCode m) {n : Node K V} {k : K}
    (hn : n ∈ m.table.flatten) (hk : n.key = k) :
    get hashCode (some k) m = .ok n.value := by
  obtain ⟨hpos, hplaced, hhashed, hnodup, hsize⟩ := hWF
  obtain ⟨b, hb, hnb⟩ := List.mem_flatten.1 hn
  obtain ⟨i, hi, hbi⟩ := List.getElem_of_mem hb
  have hhash : n.hash = spread (hashCode k) := by
    rw [hhashed n hn, hk]
  have hidx : indexFor (spread (hashCode k)) m.table.length = i := by
    rw [← hhash]
    exact hplaced i hi n (by rw [hbi]; exact hnb)
  have hbucket : m.table.getD (indexFor (spread (hashCode k)) m.table.length) [] = b := by
    rw [hidx, List.getD_eq_getElem m.table [] hi, hbi]
  have hcount : b.countP (fun a => decide (a.key = k)) ≤ 1 := by
    refine le_trans ?_ (key_countP_le_one ⟨hpos, hplaced, hhashed, hnodup, hsize⟩ k)
    rw [← hbucket]
    exact countP_getD_le_flatten _ _ _
  have hfind : bucketFind (spread (hashCode k)) k b = some n :=
    bucketFind_of_unique hcount hnb hhash hk
  simp only [get, hbucket, hfind]

theorem get_of_no_key (hashCode : K → Int) {m : StripedHashMap K V} {k : K}
    (hnone : ∀ a ∈ m.table.flatten, a.key ≠ k) :
    get hashCode (some k) m = .ok none := by
  cases hf : bucketFind (spread (hashCode k)) k
      (m.table.getD (indexFor (spread (hashCode k)) m.table.length) []) with
  | some n =>
    obtain ⟨hmem, _, hkey⟩ := bucketFind_some hf
    exact absurd hkey (hnone n (mem_getD_mem_flatten hmem))
  | none => simp only [get, hf]

theorem get_afterResize (hashCode : K → Int) {m : StripedHashMap K V}
    (hWF : WF hashCode m) (k : K) :
    get hashCode (some k) (afterResize m) = get hashCode (some k) m := by
  have hWF' := WF_afterResize hWF
  have hperm := resizeTable_flatten_perm (t := m.table) hWF.1
  by_cases hex : ∃ n ∈ m.table.flatten, n.key = k
  · obtain ⟨n, hn, hk⟩ := hex
    rw [get_of_mem_flatten hashCode hWF hn hk,
      get_of_mem_flatten hashCode hWF' (n := n) (by simpa [afterResize] using hperm.mem_iff.2 hn) hk]
  · push_neg at hex
    rw [get_of_no_key hashCode hex,
      get_of_no_key hashCode (fun a ha => hex a (by simpa [afterResize] using hperm.mem_iff.1 (by simpa [afterResize] using ha)))]

theorem get_resizeIfNeeded (hashCode : K → Int) {m : StripedHashMap K V}
    (hWF : WF hashCode m) (k : K) :
    get hashCode (some k) (resizeIfNeeded m) = get hashCode (some k) m := by
  unfold resizeIfNeeded
  split
  · exact get_afterResize hashCode hWF k
  · rfl

theorem set_cons_flatten_perm {α : Type} (t : List (List α)) (i : Nat)
    (h : i < t.length) (x : α) :
    (t.set i (x :: t.getD i [])).flatten.Perm (x :: t.flatten) := by
  refine (flatten_set_perm t i _ h).trans ?_
  simp only [List.cons_append]
  exact ((flatten_decomp_perm t i h).symm).cons x

theorem no_key_of_find_none (hashCode : K → Int) {m : StripedHashMap K V}
    (hWF : WF hashCode m) {k : K}
    (hfind : bucketFind (spread (hashCode k)) k
      (m.table.getD (indexFor (spread (hashCode k)) m.table.length) []) = none) :
    ∀ a ∈ m.table.flatten, a.key ≠ k := by
  intro a ha hk
  obtain ⟨hpos, hplaced, hhashed, hnodup, hsize⟩ := hWF
  have hhash : a.hash = spread (hashCode k) := by rw [hhashed a ha, hk]
  obtain ⟨b, hb, hab⟩ := List.mem_flatten.1 ha
  obtain ⟨i, hi, hbi⟩ := List.getElem_of_mem hb
  have hidx : indexFor (spread (hashCode k)) m.table.length = i := by
    rw [← hhash]
    exact hplaced i hi a (by rw [hbi]; exact hab)
  have hbucket : m.table.getD (indexFor (spread (hashCode k)) m.table.length) [] = b := by
    rw [hidx, List.getD_eq_getElem m.table [] hi, hbi]
  rw [hbucket] at hfind
  exact bucketFind_none hfind a hab ⟨hhash, hk⟩

/-- Inserting a fresh node for an absent key (the common prepend step of
`put`, `putIfAbsent` and `computeIfAbsent`, before any resize) preserves the
invariant. -/
theorem WF_insert (hashCode : K → Int) {m : StripedHashMap K V}
    (hWF : WF hashCode m) (k : K) (v : Option V)
    (hfind : bucketFind (spread (hashCode k)) k
      (m.table.getD (indexFor (spread (hashCode k)) m.table.length) []) = none) :
    WF hashCode
      { m with
        table := m.table.set (indexFor (spread (hashCode k)) m.table.length)
          (Node.mk (spread (hashCode k)) k v ::
            m.table.getD (indexFor (spread (hashCode k)) m.table.length) []),
        size := m.size + 1 } := by
  have hnokey := no_key_of_find_none hashCode hWF hfind
  obtain ⟨hpos, hplaced, hhashed, hnodup, hsize⟩ := hWF
  have hi : indexFor (spread (hashCode k)) m.table.length < m.table.length :=
    indexFor_lt _ hpos
  have hperm := set_cons_flatten_perm m.table _ hi
    (Node.mk (spread (hashCode k)) k v)
  refine ⟨by simpa using hpos, ?_, ?_, ?_, ?_⟩
  · intro j hj n hn
    simp only [List.length_set] at hj
    simp only [List.getElem_set] at hn
    split at hn
    · rename_i he
      rcases List.mem_cons.1 hn with rfl | hn'
      · simpa using he
      · have : m.table.getD (indexFor (spread (hashCode k)) m.table.length) []
            = m.table[indexFor (spread (hashCode k)) m.table.length] :=
          List.getD_eq_getElem m.table [] hi
        rw [this] at hn'
        simpa using he ▸ hplaced _ hi n hn'
    · simpa using hplaced j hj n hn
  · intro n hn
    rcases List.mem_cons.1 (hperm.mem_iff.1 hn) with rfl | hn'
    · rfl
    · exact hhashed n hn'
  · have := hperm.map Node.key
    refine this.nodup_iff.2 ?_
    simp only [List.map_cons]
    exact List.nodup_cons.2 ⟨fun hmem => by
      obtain ⟨a, ha, hak⟩ := List.mem_map.1 hmem
      exact hnokey a ha hak, hnodup⟩
  · simp only [hperm.length_eq, List.length_cons]
    rw [hsize]
    push_cast
    ring

/-- Overwriting values in place inside one bucket (the found branches of `put`
and `replace`) preserves the invariant, provided the new chain keeps every
node's hash and key aligned with a node of the old chain. -/
theorem WF_update (hashCode : K → Int) {m : StripedHashMap K V}
    (hWF : WF hashCode m) {i : Nat} (hi : i < m.table.length)
    {b' : List (Node K V)}
    (hkeys : b'.map Node.key = (m.table.getD i []).map Node.key)
    (hmem : ∀ a ∈ b', ∃ c ∈ m.table.getD i [], a.hash = c.hash ∧ a.key = c.key) :
    WF hashCode { m with table := m.table.set i b' } := by
  obtain ⟨hpos, hplaced, hhashed, hnodup, hsize⟩ := hWF
  have hb : m.table.getD i [] = m.table[i] := List.getD_eq_getElem m.table [] hi
  have hperm := flatten_set_perm m.table i b' hi
  have hdecomp := flatten_decomp_perm m.table i hi
  refine ⟨by simpa using hpos, ?_, ?_, ?_, ?_⟩
  · intro j hj n hn
    simp only [List.length_set] at hj
    simp only [List.getElem_set] at hn
    split at hn
    · rename_i he
      obtain ⟨c, hc, hch, hck⟩ := hmem n hn
      rw [hb] at hc
      simpa [hch] using he ▸ hplaced _ hi c hc
    · simpa using hplaced j hj n hn
  · intro n hn
    rcases List.mem_append.1 (hperm.mem_iff.1 hn) with hn' | hn'
    · obtain ⟨c, hc, hch, hck⟩ := hmem n hn'
      have hcf : c ∈ m.table.flatten := mem_getD_mem_flatten hc
      rw [hch, hck, hhashed c hcf]
    · exact hhashed n (hdecomp.mem_iff.2 (List.mem_append_right _ hn'))
  · refine (hperm.map Node.key).nodup_iff.2 ?_
    rw [List.map_append, hkeys, ← List.map_append]
    exact ((hdecomp.map Node.key).nodup_iff.1 hnodup)
  · have hlen : b'.length = (m.table.getD i []).length := by
      have := congrArg List.length hkeys
      simpa using this
    rw [hperm.length_eq, List.length_append, hlen]
    rw [hsize, hdecomp.length_eq, List.length_append]

/-- Unlinking one node (the found branch of `remove`) preserves the
invariant. -/
theorem WF_remove_state (hashCode : K → Int) {m : StripedHashMap K V}
    (hWF : WF hashCode m) {i : Nat} (hi : i < m.table.length)
    {b' : List (Node K V)}
    (hsub : b'.Sublist (m.table.getD i []))
    (hlen : (m.table.getD i []).length = b'.length + 1) :
    WF hashCode { m with table := m.table.set i b', size := m.size - 1 } := by
  obtain ⟨hpos, hplaced, hhashed, hnodup, hsize⟩ := hWF
  have hb : m.table.getD i [] = m.table[i] := List.getD_eq_getElem m.table [] hi
  have hperm := flatten_set_perm m.table i b' hi
  have hdecomp := flatten_decomp_perm m.table i hi
  refine ⟨by simpa using hpos, ?_, ?_, ?_, ?_⟩
  · intro j hj n hn
    simp only [List.length_set] at hj
    simp only [List.getElem_set] at hn
    split at hn
    · rename_i he
      have hnb : n ∈ m.table[i] := hb ▸ hsub.subset hn
      simpa using he ▸ hplaced _ hi n hnb
    · simpa using hplaced j hj n hn
  · intro n hn
    rcases List.mem_append.1 (hperm.mem_iff.1 hn) with hn' | hn'
    · exact hhashed n (mem_getD_mem_flatten (hsub.subset hn'))
    · exact hhashed n (hdecomp.mem_iff.2 (List.mem_append_right _ hn'))
  · refine (hperm.map Node.key).nodup_iff.2 ?_
    have hnd := (hdecomp.map Node.key).nodup_iff.1 hnodup
    rw [List.map_append] at hnd ⊢
    exact hnd.sublist ((hsub.map Node.key).append_right _)
  · rw [hperm.length_eq, List.length_append]
    rw [hsize, hdecomp.length_eq, List.length_append, hlen]
    push_cast
    ring

/-- `clear` preserves the invariant. -/
theorem WF_clear (hashCode : K → Int) {m : StripedHashMap K V}
    (hWF : WF hashCode m) : WF hashCode (clear m) := by
  refine ⟨by simpa [clear] using hWF.1, ?_, ?_, ?_, ?_⟩
  · intro i hi n hn
    simp only [clear] at hn
    rw [List.getElem_replicate] at hn
    cases hn
  · intro n hn
    rw [clear] at hn
    simp only at hn
    rw [flatten_replicate_nil] at hn
    cases hn
  · simp [clear, flatten_replicate_nil]
  · simp [clear, flatten_replicate_nil]

theorem replaceLoop_none_iff {hash : Nat} {k : K} {ov nv : Option V}
    {b : List (Node K V)} :
    replaceLoop hash k ov nv b = none ↔ bucketFind hash k b = none := by
  induction b with
  | nil => simp [replaceLoop, bucketFind]
  | cons x xs ih =>
    rw [replaceLoop, bucketFind]
    split
    · split <;> simp
    · cases h : replaceLoop hash k ov nv xs with
      | none => simp [h, ih.1 h]
      | some p =>
        simp [h, (by simpa [h] using ih.not.1 (by simp [h]) :
          ¬bucketFind hash k xs = none)]

theorem find_some_of_mem (hashCode : K → Int) {m : StripedHashMap K V}
    (hWF : WF hashCode m) {n : Node K V} {k : K}
    (hn : n ∈ m.table.flatten) (hk : n.key = k) :
    bucketFind (spread (hashCode k)) k
      (m.table.getD (indexFor (spread (hashCode k)) m.table.length) []) = some n := by
  obtain ⟨hpos, hplaced, hhashed, hnodup, hsize⟩ := hWF
  obtain ⟨b, hb, hnb⟩ := List.mem_flatten.1 hn
  obtain ⟨i, hi, hbi⟩ := List.getElem_of_mem hb
  have hhash : n.hash = spread (hashCode k) := by rw [hhashed n hn, hk]
  have hidx : indexFor (spread (hashCode k)) m.table.length = i := by
    rw [← hhash]
    exact hplaced i hi n (by rw [hbi]; exact hnb)
  have hbucket : m.table.getD (indexFor (spread (hashCode k)) m.table.length) [] = b := by
    rw [hidx, List.getD_eq_getElem m.table [] hi, hbi]
  rw [hbucket]
  have hcount : b.countP (fun a => decide (a.key = k)) ≤ 1 := by
    refine le_trans ?_ (key_countP_le_one ⟨hpos, hplaced, hhashed, hnodup, hsize⟩ k)
    rw [← hbucket]
    exact countP_getD_le_flatten _ _ _
  exact bucketFind_of_unique hcount hnb hhash hk

/-! ### The public operations preserve the invariant -/

theorem WF_put (hashCode : K → Int) {m : StripedHashMap K V}
    (hWF : WF hashCode m) (k : K) (v : Option V) :
    WF hashCode (put hashCode (some k) v m).2 := by
  cases hpl : putLoop (spread (hashCode k)) k v
      (m.table.getD (indexFor (spread (hashCode k)) m.table.length) []) with
  | some p =>
    obtain ⟨old, b'⟩ := p
    obtain ⟨hkeys, hhashes, hmem, hfind⟩ := putLoop_some_spec hpl
    obtain ⟨c, hc, hch, hck⟩ : ∃ c ∈ m.table.getD
        (indexFor (spread (hashCode k)) m.table.length) [],
        c.hash = spread (hashCode k) ∧ c.key = k := by
      cases hbf : bucketFind (spread (hashCode k)) k
          (m.table.getD (indexFor (spread (hashCode k)) m.table.length) []) with
      | none => rw [putLoop_none_iff.2 hbf] at hpl; cases hpl
      | some c =>
        obtain ⟨h1, h2, h3⟩ := bucketFind_some hbf
        exact ⟨c, h1, h2, h3⟩
    simp only [put, hpl]
    refine WF_update hashCode hWF (indexFor_lt _ hWF.1) hkeys ?_
    intro a ha
    rcases hmem a ha with ⟨h1, h2, _⟩ | hmem'
    · exact ⟨c, hc, by rw [h1, hch], by rw [h2, hck]⟩
    · exact ⟨a, hmem', rfl, rfl⟩
  | none =>
    have hbf := putLoop_none_iff.1 hpl
    have hWFi := WF_insert hashCode hWF k v hbf
    simp only [put, hpl]
    split
    · exact WF_resizeIfNeeded hWFi
    · exact hWFi

theorem WF_putIfAbsent (hashCode : K → Int) {m : StripedHashMap K V}
    (hWF : WF hashCode m) (k : K) (v : Option V) :
    WF hashCode (putIfAbsent hashCode (some k) v m).2 := by
  cases hbf : bucketFind (spread (hashCode k)) k
      (m.table.getD (indexFor (spread (hashCode k)) m.table.length) []) with
  | some n => simpa only [putIfAbsent, hbf] using hWF
  | none =>
    have hWFi := WF_insert hashCode hWF k v hbf
    simp only [putIfAbsent, hbf]
    split
    · exact WF_resizeIfNeeded hWFi
    · exact hWFi

theorem WF_computeIfAbsent (hashCode : K → Int) {m : StripedHashMap K V}
    (hWF : WF hashCode m) (k : K) (f : K → Option V) :
    WF hashCode (computeIfAbsent hashCode (some k) f m).2.1 := by
  cases hbf : bucketFind (spread (hashCode k)) k
      (m.table.getD (indexFor (spread (hashCode k)) m.table.length) []) with
  | some n => simpa only [computeIfAbsent, hbf] using hWF
  | none =>
    have hWFi := WF_insert hashCode hWF k (f k) hbf
    simp only [computeIfAbsent, hbf]
    split
    · exact WF_resizeIfNeeded hWFi
    · exact hWFi

theorem WF_remove (hashCode : K → Int) {m : StripedHashMap K V}
    (hWF : WF hashCode m) (k : K) :
    WF hashCode (remove hashCode (some k) m).2 := by
  cases hrl : removeLoop (spread (hashCode k)) k
      (m.table.getD (indexFor (spread (hashCode k)) m.table.length) []) with
  | some p =>
    obtain ⟨old, b'⟩ := p
    obtain ⟨hsub, hlen, _⟩ := removeLoop_some_spec hrl
    simp only [remove, hrl]
    exact WF_remove_state hashCode hWF (indexFor_lt _ hWF.1) hsub hlen
  | none => simpa only [remove, hrl] using hWF

theorem WF_replace (hashCode : K → Int) {m : StripedHashMap K V}
    (hWF : WF hashCode m) (k : K) (ov nv : Option V) :
    WF hashCode (replace hashCode (some k) ov nv m).2 := by
  cases hrl : replaceLoop (spread (hashCode k)) k ov nv
      (m.table.getD (indexFor (spread (hashCode k)) m.table.length) []) with
  | some p =>
    obtain ⟨r, b'⟩ := p
    obtain ⟨hkeys, hhashes, hmem, hlen⟩ := replaceLoop_some_spec hrl
    obtain ⟨c, hc, hch, hck⟩ : ∃ c ∈ m.table.getD
        (indexFor (spread (hashCode k)) m.table.length) [],
        c.hash = spread (hashCode k) ∧ c.key = k := by
      cases hbf : bucketFind (spread (hashCode k)) k
          (m.table.getD (indexFor (spread (hashCode k)) m.table.length) []) with
      | none => rw [replaceLoop_none_iff.2 hbf] at hrl; cases hrl
      | some c =>
        obtain ⟨h1, h2, h3⟩ := bucketFind_some hbf
        exact ⟨c, h1, h2, h3⟩
    simp only [replace, hrl]
    refine WF_update hashCode hWF (indexFor_lt _ hWF.1) hkeys ?_
    intro a ha
    rcases hmem a ha with ⟨h1, h2⟩ | hmem'
    · exact ⟨c, hc, by rw [h1, hch], by rw [h2, hck]⟩
    · exact ⟨a, hmem', rfl, rfl⟩
  | none => simpa only [replace, hrl] using hWF

/-! ### Observable facts used by the claims -/

theorem resizeIfNeeded_size (m : StripedHashMap K V) :
    (resizeIfNeeded m).size = m.size := by
  unfold resizeIfNeeded afterResize
  split <;> rfl

theorem resizeIfNeeded_numStripes (m : StripedHashMap K V) :
    (resizeIfNeeded m).numStripes = m.numStripes := by
  unfold resizeIfNeeded afterResize
  split <;> rfl

theorem resizeIfNeeded_flatten_perm {m : StripedHashMap K V}
    (hpos : 0 < m.table.length) :
    (resizeIfNeeded m).table.flatten.Perm m.table.flatten := by
  unfold resizeIfNeeded afterResize
  split
  · exact resizeTable_flatten_perm hpos
  · exact List.Perm.refl _

/-- The table after an absent-key `put` holds exactly the old nodes plus the
freshly inserted one (also across the resize the insert may have
triggered). -/
theorem put_insert_flatten_perm (hashCode : K → Int) {m : StripedHashMap K V}
    (hpos : 0 < m.table.length) {k : K} (v : Option V)
    (hpl : putLoop (spread (hashCode k)) k v
      (m.table.getD (indexFor (spread (hashCode k)) m.table.length) []) = none) :
    (put hashCode (some k) v m).2.table.flatten.Perm
      (Node.mk (spread (hashCode k)) k v :: m.table.flatten) := by
  simp only [put, hpl]
  split
  · refine (resizeIfNeeded_flatten_perm (by simpa using hpos)).trans ?_
    exact set_cons_flatten_perm m.table _ (indexFor_lt _ hpos) _
  · exact set_cons_flatten_perm m.table _ (indexFor_lt _ hpos) _

/-- The table after a found-key `put` holds nodes with exactly the same keys
as before. -/
theorem put_update_keys_eq (hashCode : K → Int) {m : StripedHashMap K V}
    (hpos : 0 < m.table.length) {k : K} {v old : Option V}
    {b' : List (Node K V)}
    (hpl : putLoop (spread (hashCode k)) k v
      (m.table.getD (indexFor (spread (hashCode k)) m.table.length) []) = some (old, b')) :
    ((put hashCode (some k) v m).2.table.flatten.map Node.key).Perm
      (m.table.flatten.map Node.key) := by
  obtain ⟨hkeys, _, _, _⟩ := putLoop_some_spec hpl
  simp only [put, hpl]
  have hi := indexFor_lt (spread (hashCode k)) hpos
  have hperm := flatten_set_perm m.table _ b' hi
  have hdecomp := flatten_decomp_perm m.table _ hi
  refine (hperm.map Node.key).trans ?_
  refine List.Perm.trans ?_ ((hdecomp.map Node.key).symm)
  rw [List.map_append, List.map_append, hkeys]

/-- C3 helper: `get` after `put` on the same key returns the written value. -/
theorem get_put (hashCode : K → Int) {m : StripedHashMap K V}
    (hWF : WF hashCode m) (k : K) (v : Option V) :
    get hashCode (some k) (put hashCode (some k) v m).2 = .ok v := by
  cases hpl : putLoop (spread (hashCode k)) k v
      (m.table.getD (indexFor (spread (hashCode k)) m.table.length) []) with
  | some p =>
    obtain ⟨old, b'⟩ := p
    obtain ⟨_, _, _, hfind⟩ := putLoop_some_spec hpl
    have hi := indexFor_lt (spread (hashCode k)) hWF.1
    simp only [put, hpl]
    have hbucket :
        (m.table.set (indexFor (spread (hashCode k)) m.table.length) b').getD
          (indexFor (spread (hashCode k)) m.table.length) [] = b' := by
      rw [List.getD_eq_getElem _ [] (by simpa using hi)]
      exact List.getElem_set_self _
    simp only [get, List.length_set, hbucket, hfind]
  | none =>
    have hbf := putLoop_none_iff.1 hpl
    have hWFi := WF_insert hashCode hWF k v hbf
    have hmem : Node.mk (spread (hashCode k)) k v ∈
        (m.table.set (indexFor (spread (hashCode k)) m.table.length)
          (Node.mk (spread (hashCode k)) k v ::
            m.table.getD (indexFor (spread (hashCode k)) m.table.length) [])).flatten :=
      (set_cons_flatten_perm m.table _ (indexFor_lt _ hWF.1) _).mem_iff.2
        (List.mem_cons_self _ _)
    simp only [put, hpl]
    split
    · rw [get_resizeIfNeeded hashCode hWFi k]
      exact get_of_mem_flatten hashCode hWFi hmem rfl
    · exact get_of_mem_flatten hashCode hWFi hmem rfl

/-- Whether some live entry carries the key (the spec's notion of a key being
present, independent of which bucket it sits in). -/
def hasKey (m : StripedHashMap K V) (k : K) : Bool :=
  m.table.flatten.any fun n => decide (n.key = k)

theorem hasKey_iff {m : StripedHashMap K V} {k : K} :
    hasKey m k = true ↔ ∃ n ∈ m.table.flatten, n.key = k := by
  simp only [hasKey, List.any_eq_true, decide_eq_true_eq]

theorem find_none_iff_not_hasKey (hashCode : K → Int) {m : StripedHashMap K V}
    (hWF : WF hashCode m) {k : K} :
    (bucketFind (spread (hashCode k)) k
      (m.table.getD (indexFor (spread (hashCode k)) m.table.length) []) = none) ↔
    hasKey m k = false := by
  constructor
  · intro hbf
    rw [← Bool.not_eq_true]
    intro htrue
    obtain ⟨n, hn, hk⟩ := hasKey_iff.1 htrue
    exact no_key_of_find_none hashCode hWF hbf n hn hk
  · intro hfalse
    cases hbf : bucketFind (spread (hashCode k)) k
        (m.table.getD (indexFor (spread (hashCode k)) m.table.length) []) with
    | none => rfl
    | some n =>
      obtain ⟨hmem, _, hk⟩ := bucketFind_some hbf
      have : hasKey m k = true :=
        hasKey_iff.2 ⟨n, mem_getD_mem_flatten hmem, hk⟩
      rw [this] at hfalse
      cases hfalse

/-! ### `forEach` traversal lemmas -/

theorem stripeIndicesAux_mem :
    ∀ (fuel cap ns i j : Nat), 0 < ns → cap ≤ i + fuel →
      (j ∈ stripeIndicesAux fuel cap ns i ↔ i ≤ j ∧ j < cap ∧ j % ns = i % ns) := by
  intro fuel
  induction fuel with
  | zero =>
    intro cap ns i j hns hle
    rw [stripeIndicesAux]
    simp only [List.not_mem_nil, false_iff]
    rintro ⟨h1, h2, _⟩
    omega
  | succ f ih =>
    intro cap ns i j hns hle
    rw [stripeIndicesAux]
    split
    · rename_i hi
      rw [List.mem_cons, ih cap ns (i + ns) j hns (by omega)]
      constructor
      · rintro (rfl | ⟨h1, h2, h3⟩)
        · exact ⟨Nat.le_refl _, hi, rfl⟩
        · exact ⟨by omega, h2, by rw [h3, Nat.add_mod_right]⟩
      · rintro ⟨h1, h2, h3⟩
        by_cases hj : j = i
        · exact Or.inl hj
        · right
          have hij : i < j := Nat.lt_of_le_of_ne h1 (Ne.symm hj)
          have hmodeq : i ≡ j [MOD ns] := h3.symm
          have hdvd : ns ∣ j - i := (Nat.modEq_iff_dvd' h1).1 hmodeq
          have hle2 : ns ≤ j - i := Nat.le_of_dvd (by omega) hdvd
          exact ⟨by omega, h2, by rw [h3, Nat.add_mod_right]⟩
    · rename_i hi
      simp only [List.not_mem_nil, false_iff]
      rintro ⟨h1, h2, _⟩
      omega

theorem stripeIndicesAux_nodup :
    ∀ (fuel cap ns i : Nat), 0 < ns → cap ≤ i + fuel →
      (stripeIndicesAux fuel cap ns i).Nodup := by
  intro fuel
  induction fuel with
  | zero => intro cap ns i _ _; rw [stripeIndicesAux]; exact List.nodup_nil
  | succ f ih =>
    intro cap ns i hns hle
    rw [stripeIndicesAux]
    split
    · refine List.nodup_cons.2 ⟨?_, ih cap ns (i + ns) hns (by omega)⟩
      intro hmem
      have := (stripeIndicesAux_mem f cap ns (i + ns) i hns (by omega)).1 hmem
      omega
    · exact List.nodup_nil

theorem stripeIndices_mem {cap ns s j : Nat} (hns : 0 < ns) :
    j ∈ stripeIndices cap ns s ↔ s ≤ j ∧ j < cap ∧ j % ns = s % ns :=
  stripeIndicesAux_mem cap cap ns s j hns (Nat.le_add_left cap s)

/-- The stripe-by-stripe index traversal of `forEach` visits every bucket index
below the capacity exactly once. -/
theorem indices_flatMap_perm {cap ns : Nat} (hns : 0 < ns) :
    ((List.range ns).flatMap fun s => stripeIndices cap ns s).Perm
      (List.range cap) := by
  have hnodup : ((List.range ns).flatMap fun s => stripeIndices cap ns s).Nodup := by
    refine List.nodup_flatMap.2 ⟨?_, ?_⟩
    · intro s _
      exact stripeIndicesAux_nodup cap cap ns s hns (Nat.le_add_left cap s)
    · refine List.Pairwise.imp_of_mem ?_ (List.nodup_range ns)
      intro s t hs ht hne
      intro j hj hj'
      have h1 := (stripeIndices_mem hns).1 hj
      have h2 := (stripeIndices_mem hns).1 hj'
      have hsn : s < ns := List.mem_range.1 hs
      have htn : t < ns := List.mem_range.1 ht
      have hs' : s % ns = s := Nat.mod_eq_of_lt hsn
      have ht' : t % ns = t := Nat.mod_eq_of_lt htn
      omega
  refine List.perm_of_nodup_nodup_toFinset_eq hnodup (List.nodup_range cap) ?_
  ext j
  simp only [List.mem_toFinset, List.mem_flatMap, List.mem_range]
  constructor
  · rintro ⟨s, hs, hj⟩
    exact ((stripeIndices_mem hns).1 hj).2.1
  · intro hj
    refine ⟨j % ns, Nat.mod_lt j hns, ?_⟩
    rw [stripeIndices_mem hns]
    exact ⟨Nat.mod_le j ns, hj, (Nat.mod_mod_of_dvd j (dvd_refl ns)).symm⟩

theorem flatMap_getD_eq_flatten {α : Type} (t : List (List α)) :
    ((List.range t.length).flatMap fun i => t.getD i []) = t.flatten := by
  induction t with
  | nil => rfl
  | cons b bs ih =>
    rw [List.length_cons, List.range_succ_eq_map, List.flatMap_cons, List.flatMap_map]
    simp only [List.getD_cons_zero, List.getD_cons_succ, List.flatten_cons]
    rw [ih]

/-- `forEach` visits, over the whole traversal, exactly the live entries (as a
permutation of the table contents). -/
theorem forEachVisits_perm {m : StripedHashMap K V} (hns : 0 < m.numStripes) :
    (forEachVisits m).Perm (m.table.flatten.map fun n => (n.key, n.value)) := by
  unfold forEachVisits
  rw [show ((List.range m.numStripes).flatMap fun stripe =>
        (stripeIndices m.table.length m.numStripes stripe).flatMap fun index =>
          (m.table.getD index []).map fun n => (n.key, n.value)) =
      (((List.range m.numStripes).flatMap fun stripe =>
        stripeIndices m.table.length m.numStripes stripe).flatMap fun index =>
          (m.table.getD index []).map fun n => (n.key, n.value)) from
    (List.flatMap_assoc _ _ _).symm]
  refine ((indices_flatMap_perm hns).flatMap_right _).trans ?_
  rw [← List.map_flatMap, flatMap_getD_eq_flatten]

/-- The growth check with a finite load factor agrees with the exact rational
comparison `size > capacity * loadFactor` whenever the threshold does not
clamp at `Integer.MAX_VALUE` (an integer count exceeds the truncated
threshold exactly when it exceeds the real one). -/
theorem needsResize_fin_iff {capacity : Nat} {n num : Int} {den : Nat}
    (hden : 0 < den) (hnum : 0 ≤ num)
    (hbound : (capacity : Int) * num < 2147483647 * (den : Int)) :
    needsResize capacity n (.fin num den) = true ↔
      (capacity : ℚ) * ((num : ℚ) / (den : ℚ)) < (n : ℚ) := by
  have hden' : (0:Int) < (den : Int) := by exact_mod_cast hden
  have hdenQ : (0:ℚ) < (den : ℚ) := by exact_mod_cast hden
  have hnum' : 0 ≤ (capacity : Int) * num := by positivity
  have htt : jIntOfFrac ((capacity : Int) * num) den
      = ((capacity : Int) * num) / (den : Int) := by
    unfold jIntOfFrac
    have hc1 : ¬((capacity : Int) * num ≤ -2147483648 * (den : Int)) := by
      have hpos : (0:Int) < 2147483648 * (den : Int) :=
        mul_pos (by norm_num) hden'
      omega
    have hc2 : ¬(2147483647 * (den : Int) ≤ (capacity : Int) * num) := by omega
    rw [if_neg hc1, if_neg hc2]
    exact Int.tdiv_eq_ediv hnum' (by omega)
  have h1 : needsResize capacity n (.fin num den) = true ↔
      (capacity : Int) * num / (den : Int) < n := by
    simp only [needsResize, htt, decide_eq_true_eq, gt_iff_lt]
  rw [h1, Int.ediv_lt_iff_lt_mul hden']
  rw [mul_div_assoc' (capacity : ℚ) (num : ℚ) (den : ℚ), div_lt_iff hdenQ]
  constructor
  · intro h
    exact_mod_cast h
  · intro h
    exact_mod_cast h

/-- Keys reachable after a `put` are the written key or keys reachable
before. -/
theorem put_key_mem (hashCode : K → Int) {m : StripedHashMap K V}
    (hWF : WF hashCode m) (k : K) (v : Option V) {x : K}
    (hx : x ∈ (put hashCode (some k) v m).2.table.flatten.map Node.key) :
    x = k ∨ x ∈ m.table.flatten.map Node.key := by
  cases hpl : putLoop (spread (hashCode k)) k v
      (m.table.getD (indexFor (spread (hashCode k)) m.table.length) []) with
  | some p =>
    obtain ⟨old, b'⟩ := p
    exact Or.inr ((put_update_keys_eq hashCode hWF.1 hpl).mem_iff.1 hx)
  | none =>
    have hperm := (put_insert_flatten_perm hashCode hWF.1 v hpl).map Node.key
    have hx' := hperm.mem_iff.1 hx
    simp only [List.map_cons] at hx'
    exact List.mem_cons.1 hx'

/-- Along any sequence of `put` calls the invariant is preserved and every
reachable key was either present initially or appears in the sequence. -/
theorem foldl_put_WF_keys (hashCode : K → Int) (pairs : List (K × Option V)) :
    ∀ {m : StripedHashMap K V}, WF hashCode m →
      WF hashCode (pairs.foldl (fun acc p => (put hashCode (some p.1) p.2 acc).2) m) ∧
      ∀ a ∈ (pairs.foldl (fun acc p => (put hashCode (some p.1) p.2 acc).2) m).table.flatten,
        a.key ∈ m.table.flatten.map Node.key ∨ a.key ∈ pairs.map Prod.fst := by
  induction pairs with
  | nil =>
    intro m hWF
    exact ⟨hWF, fun a ha => Or.inl (List.mem_map_of_mem Node.key ha)⟩
  | cons p ps ih =>
    intro m hWF
    simp only [List.foldl_cons]
    have hWF1 := WF_put hashCode hWF p.1 p.2
    obtain ⟨hWFf, hkeys⟩ := ih hWF1
    refine ⟨hWFf, ?_⟩
    intro a ha
    rcases hkeys a ha with hin | hin
    · rcases put_key_mem hashCode hWF p.1 p.2 hin with h | h
      · exact Or.inr (by simp [h])
      · exact Or.inl h
    · exact Or.inr (by simp [hin])

/-- The size after a sequence of `put` calls starting from an empty
well-formed map is bounded by the number of distinct keys in the sequence. -/
theorem foldl_put_size_le (hashCode : K → Int) (pairs : List (K × Option V))
    {m : StripedHashMap K V} (hWF : WF hashCode m)
    (hempty : m.table.flatten = []) :
    (pairs.foldl (fun acc p => (put hashCode (some p.1) p.2 acc).2) m).size ≤
      ((pairs.map Prod.fst).dedup.length : Int) := by
  obtain ⟨hWFf, hkeys⟩ := foldl_put_WF_keys hashCode pairs hWF
  set mf := pairs.foldl (fun acc p => (put hashCode (some p.1) p.2 acc).2) m with hmf
  set l := mf.table.flatten.map Node.key with hl
  have hnodup : l.Nodup := hWFf.2.2.2.1
  have hsub : l ⊆ pairs.map Prod.fst := by
    intro x hx
    obtain ⟨a, ha, rfl⟩ := List.mem_map.1 hx
    rcases hkeys a ha with h | h
    · rw [hempty] at h
      cases h
    · exact h
  have hlen : l.length ≤ (pairs.map Prod.fst).dedup.length := by
    have h1 : l.toFinset.card = l.length := List.toFinset_card_of_nodup hnodup
    have h2 : l.toFinset ⊆ (pairs.map Prod.fst).toFinset := by
      intro x hx
      exact List.mem_toFinset.2 (hsub (List.mem_toFinset.1 hx))
    have h3 := Finset.card_le_card h2
    rw [h1, List.card_toFinset] at h3
    exact h3
  have hsz := hWFf.2.2.2.2
  rw [hsz]
  have hflen : mf.table.flatten.length = l.length := (List.length_map _ _).symm
  rw [hflen]
  exact_mod_cast hlen

/-- `computeIfAbsent` on a present key returns the stored value (what `get`
returns), leaves the map untouched and never runs the generator. -/
theorem computeIfAbsent_found (hashCode : K → Int) {m : StripedHashMap K V}
    (hWF : WF hashCode m) {k : K} (f : K → Option V)
    (hk : hasKey m k = true) :
    computeIfAbsent hashCode (some k) f m = (get hashCode (some k) m, m, 0) := by
  obtain ⟨n, hn, hkey⟩ := hasKey_iff.1 hk
  have hbf := find_some_of_mem hashCode hWF hn hkey
  simp only [computeIfAbsent, get, hbf]

/-- `computeIfAbsent` on an absent key runs the generator exactly once, stores
and returns its result, and grows the count by one. -/
theorem computeIfAbsent_absent (hashCode : K → Int) {m : StripedHashMap K V}
    (hWF : WF hashCode m) {k : K} (f : K → Option V)
    (hk : hasKey m k = false) :
    (computeIfAbsent hashCode (some k) f m).1 = .ok (f k) ∧
    (computeIfAbsent hashCode (some k) f m).2.2 = 1 ∧
    (computeIfAbsent hashCode (some k) f m).2.1.size = m.size + 1 ∧
    get hashCode (some k) (computeIfAbsent hashCode (some k) f m).2.1 = .ok (f k) := by
  have hbf := (find_none_iff_not_hasKey hashCode hWF).2 hk
  have hWFi := WF_insert hashCode hWF k (f k) hbf
  have hmem : Node.mk (spread (hashCode k)) k (f k) ∈
      (m.table.set (indexFor (spread (hashCode k)) m.table.length)
        (Node.mk (spread (hashCode k)) k (f k) ::
          m.table.getD (indexFor (spread (hashCode k)) m.table.length) [])).flatten :=
    (set_cons_flatten_perm m.table _ (indexFor_lt _ hWF.1) _).mem_iff.2
      (List.mem_cons_self _ _)
  simp only [computeIfAbsent, hbf]
  split
  · refine ⟨rfl, rfl, ?_, ?_⟩
    · rw [resizeIfNeeded_size]
    · rw [get_resizeIfNeeded hashCode hWFi k]
      exact get_of_mem_flatten hashCode hWFi hmem rfl
  · exact ⟨rfl, rfl, rfl, get_of_mem_flatten hashCode hWFi hmem rfl⟩

/-- A key mapped to a null value is invisible to `containsKey` and `get`. -/
theorem containsKey_null_value (hashCode : K → Int) {m : StripedHashMap K V}
    (hWF : WF hashCode m) {k : K} {n : Node K V}
    (hn : n ∈ m.table.flatten) (hkey : n.key = k) (hval : n.value = none) :
    containsKey hashCode (some k) m = .ok false ∧
    get hashCode (some k) m = .ok none := by
  have hg : get hashCode (some k) m = .ok n.value :=
    get_of_mem_flatten hashCode hWF hn hkey
  rw [hval] at hg
  refine ⟨?_, hg⟩
  simp only [containsKey, hg]
  simp

/-! ### Concrete instances for the spec's scenarios -/

/-- Natural-number keys with the identity raw hash. -/
def natHash : Nat → Int := fun n => (n : Int)

/-- The map produced by `new StripedHashMap<>(16, 0.75f, 16)`. -/
def m16 : StripedHashMap Nat Nat :=
  ⟨List.replicate 16 [], 16, .fin 3 4, 0⟩

/-- Insert `k ↦ k` for every listed key, via `put`. -/
def insertAll (ks : List Nat) (m : StripedHashMap Nat Nat) :
    StripedHashMap Nat Nat :=
  ks.foldl (fun acc k => (put natHash (some k) (some k) acc).2) m

end StripedHashMap

/-! ### Arithmetic of `roundUpToPowerOfTwo` and the growth threshold -/

theorem jint_eq_self {n : Int} (h0 : 0 ≤ n) (h1 : n < 2147483648) :
    jint n = n := by
  unfold jint
  rw [Int.emod_eq_of_lt h0 (by omega)]
  simp only [if_pos h1]

theorem highestOneBit_pos_eq {x : Int} (hx : 0 < x) (hlt : x < 4294967296) :
    highestOneBit x = 2 ^ Nat.log2 x.toNat := by
  unfold highestOneBit
  rw [if_neg (by omega), if_pos hx, log2Fuel_eq 32 x.toNat (by omega)]

/-- For inputs up to `2^30` the rounding routine returns the least power of
two that is at least `max 2 value`; this is the regime in which the
`<< 1` does not overflow. -/
theorem roundUp_spec {v : Int} (h1 : 1 ≤ v) (h2 : v ≤ 2 ^ 30) :
    roundUpToPowerOfTwo v = 2 ^ (if v = 1 then 1 else Nat.log2 (v - 1).toNat + 1) ∧
    2 ≤ roundUpToPowerOfTwo v ∧ v ≤ roundUpToPowerOfTwo v ∧
    ∀ j : Nat, v ≤ 2 ^ j → 1 ≤ j → roundUpToPowerOfTwo v ≤ 2 ^ j := by
  by_cases hv1 : v = 1
  · subst hv1
    refine ⟨by norm_num [roundUpToPowerOfTwo, highestOneBit, jint], by norm_num [roundUpToPowerOfTwo, highestOneBit, jint], by norm_num [roundUpToPowerOfTwo, highestOneBit, jint], ?_⟩
    intro j _ hj
    have : (2:Int) ^ 1 ≤ 2 ^ j := pow_le_pow_right₀ (by norm_num) hj
    norm_num [roundUpToPowerOfTwo, highestOneBit, jint]
    omega
  · have hv2 : 2 ≤ v := by omega
    set n : Nat := (v - 1).toNat with hn
    have hnv : (n : Int) = v - 1 := Int.toNat_of_nonneg (by omega)
    have hn1 : 1 ≤ n := by omega
    have hnlt : n < 2 ^ 30 := by omega
    set L : Nat := Nat.log2 n with hL
    have hLlog : L = Nat.log 2 n := Nat.log2_eq_log_two
    have hLle : L ≤ 29 := by
      by_contra hcon
      have h30 : 30 ≤ Nat.log 2 n := by omega
      have := Nat.pow_le_iff_le_log (by norm_num) (by omega) |>.2 h30
      omega
    have hpowle : 2 ^ L ≤ n := by
      rw [hLlog]
      exact Nat.pow_log_le_self 2 (by omega)
    have hltpow : n < 2 ^ (L + 1) := by
      rw [hLlog]
      exact Nat.lt_pow_succ_log_self (by norm_num) n
    have hhob : highestOneBit (v - 1) = 2 ^ L := by
      rw [highestOneBit_pos_eq (by omega) (by omega), ← hn, ← hL]
    have hjint : jint (2 ^ L * 2) = 2 ^ L * 2 := by
      refine jint_eq_self (by positivity) ?_
      have : (2:Int) ^ L ≤ 2 ^ 29 := pow_le_pow_right₀ (by norm_num) hLle
      omega
    have hru : roundUpToPowerOfTwo v = 2 ^ (L + 1) := by
      unfold roundUpToPowerOfTwo
      rw [hhob, hjint]
      have h2L : (1:Int) ≤ 2 ^ L := one_le_pow₀ (by norm_num)
      rw [max_eq_right (by omega)]
      ring
    have hvle : v ≤ 2 ^ (L + 1) := by
      have : (n : Int) < (2 ^ (L + 1) : Nat) := by exact_mod_cast hltpow
      push_cast at this
      omega
    refine ⟨by rw [if_neg hv1]; exact hru, ?_, by rw [hru]; exact hvle, ?_⟩
    · rw [hru]
      have : (2:Int) ^ 1 ≤ 2 ^ (L + 1) := pow_le_pow_right₀ (by norm_num) (by omega)
      omega
    · intro j hj _
      rw [hru]
      have hnj : n < 2 ^ j := by
        have : (v : Int) ≤ (2 ^ j : Nat) := by push_cast; exact hj
        omega
      have hLj : L < j := by
        rw [hL, Nat.log2_eq_log_two]
        exact (Nat.lt_pow_iff_log_lt (by norm_num) (by omega)).1 hnj
      exact_mod_cast Nat.pow_le_pow_right (by norm_num) (by omega)

/-- For every positive `int` input the result is a power of two — in the
overflow regime (`value > 2^30`) the left shift wraps to `Integer.MIN_VALUE`
and `Math.max` yields `2`. -/
theorem roundUp_pow2 {v : Int} (h1 : 1 ≤ v) (h2 : v ≤ 2147483647) :
    ∃ a : Nat, roundUpToPowerOfTwo v = 2 ^ a := by
  by_cases hv30 : v ≤ 2 ^ 30
  · obtain ⟨heq, -, -, -⟩ := roundUp_spec h1 hv30
    exact ⟨_, heq⟩
  · have hv2 : 2 ≤ v := by omega
    set n : Nat := (v - 1).toNat with hn
    have hnv : (n : Int) = v - 1 := Int.toNat_of_nonneg (by omega)
    have hnge : 2 ^ 30 ≤ n := by omega
    have hnlt : n < 2 ^ 31 := by omega
    set L : Nat := Nat.log2 n with hL
    have hLlog : L = Nat.log 2 n := Nat.log2_eq_log_two
    have hL30 : L = 30 := by
      have hle : 30 ≤ L := by
        rw [hLlog]
        exact (Nat.pow_le_iff_le_log (by norm_num) (by omega)).1 hnge
      have hlt : L < 31 := by
        rw [hLlog]
        exact (Nat.lt_pow_iff_log_lt (by norm_num) (by omega)).1 hnlt
      omega
    have hhob : highestOneBit (v - 1) = 2 ^ L := by
      rw [highestOneBit_pos_eq (by omega) (by omega), ← hn, ← hL]
    have hjint : jint (2 ^ L * 2) = -2147483648 := by
      rw [hL30]
      decide
    refine ⟨1, ?_⟩
    unfold roundUpToPowerOfTwo
    rw [hhob, hjint]
    decide

theorem highestOneBit_eq_self_iff {ns : Int} (h : 1 ≤ ns)
    (h2 : ns ≤ 2147483647) :
    highestOneBit ns = ns ↔ ∃ b : Nat, ns = 2 ^ b := by
  constructor
  · intro heq
    exact ⟨Nat.log2 ns.toNat,
      heq.symm.trans (highestOneBit_pos_eq (show (0:Int) < ns by omega) (by omega))⟩
  · rintro ⟨b, rfl⟩
    rw [highestOneBit_pos_eq (by positivity) (by omega)]
    congr 1
    have htn : ((2:Int) ^ b).toNat = 2 ^ b := by
      have h2 : (2:Int) ^ b = ((2 ^ b : Nat) : Int) := by push_cast; rfl
      rw [h2, Int.toNat_natCast]
    rw [htn, Nat.log2_eq_log_two, Nat.log_pow (by norm_num)]

theorem toNat_two_pow (a : Nat) : ((2 : Int) ^ a).toNat = 2 ^ a := by
  have h2 : (2 : Int) ^ a = ((2 ^ a : Nat) : Int) := by push_cast; rfl
  rw [h2, Int.toNat_natCast]

namespace StripedHashMap

variable {K V : Type} [DecidableEq K] [DecidableEq V]

/-! ## The claims -/

/-- C1: after a resize completes, every key/value pair present before the
resize is reachable in the new table — the rebuilt table holds exactly the old
nodes (no entry lost, none duplicated), each at bucket
`hash & (newCapacity - 1)`, `get` answers exactly as before for every key, and
no key occurs twice; in particular inserting the 20 distinct keys `0..19`
into a map constructed with `(16, 0.75f, 16)` crosses the growth threshold and
leaves `size() = 20` with every key retrievable. -/
theorem claim_C1_resize_preserves_entries (hashCode : K → Int)
    (m : StripedHashMap K V) (hWF : WF hashCode m) :
    ((resizeTable m.table).flatten.Perm m.table.flatten ∧
      (∀ i (h : i < (resizeTable m.table).length),
        ∀ n ∈ (resizeTable m.table)[i],
          indexFor n.hash (m.table.length * 2) = i) ∧
      (∀ k, get hashCode (some k) (afterResize m) = get hashCode (some k) m) ∧
      (∀ k, (afterResize m).table.flatten.countP
        (fun n => decide (n.key = k)) ≤ 1)) ∧
    ((insertAll (List.range 20) m16).size = 20 ∧
      (insertAll (List.range 20) m16).table.length = 32 ∧
      ∀ k, k < 20 →
        get natHash (some k) (insertAll (List.range 20) m16) = .ok (some k)) := by
  refine ⟨⟨resizeTable_flatten_perm hWF.1, resizeTable_placed m.table, ?_, ?_⟩,
    by decide, by decide, by decide⟩
  · exact get_afterResize hashCode hWF
  · exact key_countP_le_one (WF_afterResize hWF)

/-- C1 witness at a concrete well-formed map holding keys on both sides of a
bucket split. -/
theorem claim_C1_witness :
    WF natHash (insertAll [1, 2, 17] m16) ∧
    ∀ k, get natHash (some k) (afterResize (insertAll [1, 2, 17] m16)) =
      get natHash (some k) (insertAll [1, 2, 17] m16) :=
  ⟨by decide,
    (claim_C1_resize_preserves_entries natHash (insertAll [1, 2, 17] m16)
      (by decide)).1.2.2.1⟩

/-- C2: an insert triggers a resize exactly when the new size strictly exceeds
`capacity * loadFactor` (the `(int)` truncation of the threshold makes no
difference for integer sizes, short of the `Integer.MAX_VALUE` clamp), a
resize exactly doubles the capacity, and concretely with capacity 16 and load
factor `0.75f` the thirteenth distinct key triggers growth exactly once:
capacity 16 after 12 inserts, capacity 32 and size 13 with all keys
retrievable after 13. -/
theorem claim_C2_growth_threshold :
    (∀ (capacity : Nat) (n num : Int) (den : Nat), 0 < den → 0 ≤ num →
      (capacity : Int) * num < 2147483647 * (den : Int) →
      (needsResize capacity n (.fin num den) = true ↔
        (capacity : ℚ) * ((num : ℚ) / (den : ℚ)) < (n : ℚ))) ∧
    (∀ (K V : Type) (t : List (List (Node K V))),
      (resizeTable t).length = t.length * 2) ∧
    construct 16 (JFloat.fin 3 4) 16 = .ok m16 ∧
    needsResize 16 12 (JFloat.fin 3 4) = false ∧
    needsResize 16 13 (JFloat.fin 3 4) = true ∧
    (insertAll (List.range 12) m16).table.length = 16 ∧
    (insertAll (List.range 13) m16).table.length = 32 ∧
    (insertAll (List.range 13) m16).size = 13 ∧
    ∀ k, k < 13 →
      get natHash (some k) (insertAll (List.range 13) m16) = .ok (some k) := by
  refine ⟨?_, ?_, by decide, by decide, by decide, by decide, by decide,
    by decide, by decide⟩
  · intro capacity n num den hden hnum hbound
    exact needsResize_fin_iff hden hnum hbound
  · intro K V t
    letI : DecidableEq K := Classical.decEq K
    letI : DecidableEq V := Classical.decEq V
    exact resizeTable_length t

/-- C2 witness: the threshold equivalence at capacity 16, size 13, load factor
`3/4`. -/
theorem claim_C2_witness :
    needsResize 16 13 (JFloat.fin 3 4) = true ↔
      (16 : ℚ) * ((3 : ℚ) / (4 : ℚ)) < (13 : ℚ) :=
  claim_C2_growth_threshold.1 16 13 3 4 (by decide) (by decide) (by decide)

/-- C3: on a well-formed map, `put(k, v)` followed by `get(k)` returns `v`,
for every non-null key and every value including null (`none`). -/
theorem claim_C3_put_get_roundtrip (hashCode : K → Int)
    (m : StripedHashMap K V) (hWF : WF hashCode m) (k : K) (v : Option V) :
    get hashCode (some k) (put hashCode (some k) v m).2 = .ok v :=
  get_put hashCode hWF k v

/-- C3 witness, with a null value. -/
theorem claim_C3_witness :
    WF natHash m16 ∧
    get natHash (some 5) (put natHash (some 5) none m16).2 = .ok none :=
  ⟨by decide, claim_C3_put_get_roundtrip natHash m16 (by decide) 5 none⟩

/-- C4: every operation preserves the well-formedness invariant, whose
uniqueness component says at most one entry with a given key exists in the
whole table (stated both as `WF` preservation and as the per-key bound);
consequently a sequence of `put` calls starting from an empty map never drives
`size()` above the number of distinct keys inserted. -/
theorem claim_C4_unique_key_invariant (hashCode : K → Int) :
    (∀ m : StripedHashMap K V, WF hashCode m →
      (∀ k v, WF hashCode (put hashCode (some k) v m).2) ∧
      (∀ k v, WF hashCode (putIfAbsent hashCode (some k) v m).2) ∧
      (∀ k f, WF hashCode (computeIfAbsent hashCode (some k) f m).2.1) ∧
      (∀ k, WF hashCode (remove hashCode (some k) m).2) ∧
      (∀ k ov nv, WF hashCode (replace hashCode (some k) ov nv m).2) ∧
      WF hashCode (clear m) ∧
      WF hashCode (afterResize m) ∧
      (∀ k, m.table.flatten.countP (fun n => decide (n.key = k)) ≤ 1)) ∧
    (∀ (pairs : List (K × Option V)) (m : StripedHashMap K V),
      WF hashCode m → m.table.flatten = [] →
      (pairs.foldl (fun acc p => (put hashCode (some p.1) p.2 acc).2) m).size ≤
        ((pairs.map Prod.fst).dedup.length : Int)) := by
  refine ⟨fun m hWF => ⟨fun k v => WF_put hashCode hWF k v,
    fun k v => WF_putIfAbsent hashCode hWF k v,
    fun k f => WF_computeIfAbsent hashCode hWF k f,
    fun k => WF_remove hashCode hWF k,
    fun k ov nv => WF_replace hashCode hWF k ov nv,
    WF_clear hashCode hWF, WF_afterResize hWF,
    key_countP_le_one hWF⟩, ?_⟩
  intro pairs m hWF hempty
  exact foldl_put_size_le hashCode pairs hWF hempty

/-- C4 witness: repeated `put` on key 1 plus one `put` on key 2 keeps the size
at most 2. -/
theorem claim_C4_witness :
    WF natHash (put natHash (some 1) (some 2) m16).2 ∧
    (([(1, some 1), (1, some 2), (2, some 3)] : List (Nat × Option Nat)).foldl
      (fun acc p => (put natHash (some p.1) p.2 acc).2) m16).size ≤
      ((([(1, some 1), (1, some 2), (2, some 3)] :
        List (Nat × Option Nat)).map Prod.fst).dedup.length : Int) :=
  ⟨((claim_C4_unique_key_invariant natHash).1 m16 (by decide)).1 1 (some 2),
    (claim_C4_unique_key_invariant natHash).2
      [(1, some 1), (1, some 2), (2, some 3)] m16 (by decide) (by decide)⟩

/-- C5: every keyed operation called with a null (`none`) key reports the
null-key error and returns the map unchanged — the check sits before any
lookup or mutation in the source, so no state is read or written (lock
acquisition itself has no sequential content). -/
theorem claim_C5_null_key_rejected (hashCode : K → Int)
    (m : StripedHashMap K V) (v ov nv : Option V) (f : K → Option V) :
    put hashCode none v m = (.error (), m) ∧
    get hashCode none m = .error () ∧
    remove hashCode none m = (.error (), m) ∧
    containsKey hashCode none m = .error () ∧
    putIfAbsent hashCode none v m = (.error (), m) ∧
    replace hashCode none ov nv m = (.error (), m) ∧
    computeIfAbsent hashCode none f m = (.error (), m, 0) :=
  ⟨rfl, rfl, rfl, rfl, rfl, rfl, rfl⟩

/-- C6 counterexample: the constructor checks only `loadFactor <= 0` and
`Float.isNaN(loadFactor)`, so `loadFactor = Float.POSITIVE_INFINITY` — not a
positive *finite* float — is accepted and an initialized map is produced,
where the claim demands a configuration error. -/
theorem claim_C6_counterexample :
    JFloat.posInf.leZero = false ∧ JFloat.posInf.isNaN = false ∧
    construct (K := Nat) (V := Nat) 16 JFloat.posInf 16 =
      .ok ⟨List.replicate 16 [], 16, JFloat.posInf, 0⟩ :=
  ⟨rfl, rfl, by decide⟩

/-- C6 amended: `construct(initialCapacity, loadFactor, numStripes)` raises
the configuration error if and only if `initialCapacity ≤ 0`,
`numStripes ≤ 0`, `loadFactor ≤ 0` or `loadFactor` is NaN — positive
infinity is accepted; otherwise it yields an initialized empty map (size 0,
no entries, positive capacity and stripe count). -/
theorem claim_C6_construct_validation :
    (∀ (ic : Int) (lf : JFloat) (ns : Int),
      (construct (K := K) (V := V) ic lf ns = .error ()) ↔
        (ic ≤ 0 ∨ lf.leZero = true ∨ lf.isNaN = true ∨ ns ≤ 0)) ∧
    (∀ (ic : Int) (lf : JFloat) (ns : Int) (m : StripedHashMap K V),
      construct ic lf ns = .ok m →
      m.size = 0 ∧ m.table.flatten = [] ∧ 0 < m.table.length ∧
        0 < m.numStripes) := by
  constructor
  · intro ic lf ns
    unfold construct
    split_ifs with h1 h2 h3
    · simp [h1]
    · rw [Bool.or_eq_true] at h2
      rcases h2 with h | h <;> simp [h]
    · simp [h3]
    · have h2' := h2
      simp only [Bool.or_eq_true, not_or, Bool.not_eq_true] at h2'
      simp [h1, h3, h2'.1, h2'.2]
  · intro ic lf ns m hok
    unfold construct at hok
    split_ifs at hok with h1 h2 h3 hh
    · injection hok with hm
      subst hm
      refine ⟨rfl, flatten_replicate_nil _, ?_, ?_⟩
      · simp only [List.length_replicate]
        have h2le : (2 : Int) ≤ roundUpToPowerOfTwo ic := le_max_left _ _
        omega
      · exact (show 0 < ns.toNat by omega)
    · injection hok with hm
      subst hm
      refine ⟨rfl, flatten_replicate_nil _, ?_, ?_⟩
      · simp only [List.length_replicate]
        have h2le : (2 : Int) ≤ roundUpToPowerOfTwo ic := le_max_left _ _
        omega
      · have h2le : (2 : Int) ≤ roundUpToPowerOfTwo ns := le_max_left _ _
        exact (show 0 < (roundUpToPowerOfTwo ns).toNat by omega)

/-- C6 witness: a valid construction. -/
theorem claim_C6_witness :
    m16.size = 0 ∧ m16.table.flatten = [] ∧ 0 < m16.table.length ∧
      0 < m16.numStripes :=
  (claim_C6_construct_validation (K := Nat) (V := Nat)).2
    16 (JFloat.fin 3 4) 16 m16 (by decide)

/-- C7 counterexample, two violations at concrete inputs.  First,
`numStripes = 1` is already a power of two, so the constructor keeps it: the
stripe count is 1, not the claimed minimum 2.  Second, for
`initialCapacity = 2^30 + 1` the shift `highestOneBit(2^30) << 1` overflows
the 32-bit int to `Integer.MIN_VALUE` and `Math.max(2, ·)` yields capacity 2,
not the smallest power of two `≥ 2^30 + 1`. -/
theorem claim_C7_counterexample :
    construct (K := Nat) (V := Nat) 1 (JFloat.fin 3 4) 1 =
      .ok ⟨List.replicate 2 [], 1, JFloat.fin 3 4, 0⟩ ∧
    construct (K := Nat) (V := Nat) (2 ^ 30 + 1) (JFloat.fin 3 4) 16 =
      .ok ⟨List.replicate 2 [], 16, JFloat.fin 3 4, 0⟩ :=
  ⟨by decide, by decide⟩

/-- C7 amended: for every valid construction the capacity and the stripe
count are powers of two (resize doubling keeps the capacity one, proved as
the last conjunct).  For `initialCapacity ≤ 2^30` — below the overflow of
the `<< 1` — the capacity is the smallest power of two that is `≥
initialCapacity` and `≥ 2`.  A `numStripes` argument that is already a power
of two (including 1) is kept as is; otherwise, below the same overflow bound,
it is rounded up to the smallest power of two above it. -/
theorem claim_C7_power_of_two_rounding :
    (∀ (ic : Int) (lf : JFloat) (ns : Int) (m : StripedHashMap K V),
      construct ic lf ns = .ok m → ic ≤ 2147483647 → ns ≤ 2147483647 →
      ((∃ a, m.table.length = 2 ^ a) ∧ (∃ b, m.numStripes = 2 ^ b)) ∧
      (ic ≤ 2 ^ 30 →
        2 ≤ m.table.length ∧ ic ≤ (m.table.length : Int) ∧
        ∀ j : Nat, 1 ≤ j → ic ≤ 2 ^ j → (m.table.length : Int) ≤ 2 ^ j) ∧
      ((∃ b : Nat, ns = 2 ^ b) → (m.numStripes : Int) = ns) ∧
      ((¬∃ b : Nat, ns = 2 ^ b) → ns ≤ 2 ^ 30 →
        2 ≤ m.numStripes ∧ ns ≤ (m.numStripes : Int) ∧
        ∀ j : Nat, 1 ≤ j → ns ≤ 2 ^ j → (m.numStripes : Int) ≤ 2 ^ j)) ∧
    (∀ (t : List (List (Node K V))) (a : Nat), t.length = 2 ^ a →
      (resizeTable t).length = 2 ^ (a + 1)) := by
  constructor
  · intro ic lf ns m hok hic hns
    unfold construct at hok
    split_ifs at hok with h1 h2 h3 hh
    · injection hok with hm
      subst hm
      have hic1 : 1 ≤ ic := by omega
      have hns1 : 1 ≤ ns := by omega
      refine ⟨⟨?_, ?_⟩, ?_, ?_, ?_⟩
      · obtain ⟨a, ha⟩ := roundUp_pow2 hic1 hic
        exact ⟨a, by simp only [List.length_replicate, ha, toNat_two_pow]⟩
      · obtain ⟨b, hb⟩ := (highestOneBit_eq_self_iff hns1 hns).1 hh
        exact ⟨b, show ns.toNat = 2 ^ b by rw [hb, toNat_two_pow]⟩
      · intro hic30
        obtain ⟨-, h2le, hle, hmin⟩ := roundUp_spec hic1 hic30
        have hcast : ((roundUpToPowerOfTwo ic).toNat : Int) =
            roundUpToPowerOfTwo ic := Int.toNat_of_nonneg (by omega)
        refine ⟨?_, ?_, ?_⟩
        · simp only [List.length_replicate]; omega
        · simp only [List.length_replicate, hcast]; exact hle
        · intro j hj hicj
          simp only [List.length_replicate, hcast]
          exact hmin j hicj hj
      · intro hpow
        exact (show ((ns.toNat : Int)) = ns from Int.toNat_of_nonneg (by omega))
      · intro hpow hpow30
        exact absurd ((highestOneBit_eq_self_iff hns1 hns).1 hh) (fun hp => hpow hp)
    · injection hok with hm
      subst hm
      have hic1 : 1 ≤ ic := by omega
      have hns1 : 1 ≤ ns := by omega
      refine ⟨⟨?_, ?_⟩, ?_, ?_, ?_⟩
      · obtain ⟨a, ha⟩ := roundUp_pow2 hic1 hic
        exact ⟨a, by simp only [List.length_replicate, ha, toNat_two_pow]⟩
      · obtain ⟨b, hb⟩ := roundUp_pow2 hns1 hns
        exact ⟨b, show (roundUpToPowerOfTwo ns).toNat = 2 ^ b by
          rw [hb, toNat_two_pow]⟩
      · intro hic30
        obtain ⟨-, h2le, hle, hmin⟩ := roundUp_spec hic1 hic30
        have hcast : ((roundUpToPowerOfTwo ic).toNat : Int) =
            roundUpToPowerOfTwo ic := Int.toNat_of_nonneg (by omega)
        refine ⟨?_, ?_, ?_⟩
        · simp only [List.length_replicate]; omega
        · simp only [List.length_replicate, hcast]; exact hle
        · intro j hj hicj
          simp only [List.length_replicate, hcast]
          exact hmin j hicj hj
      · intro hpow
        exact absurd ((highestOneBit_eq_self_iff hns1 hns).2 hpow) hh
      · intro hpow hns30
        obtain ⟨-, h2le, hle, hmin⟩ := roundUp_spec hns1 hns30
        have hcast : ((roundUpToPowerOfTwo ns).toNat : Int) =
            roundUpToPowerOfTwo ns := Int.toNat_of_nonneg (by omega)
        refine ⟨(show 2 ≤ (roundUpToPowerOfTwo ns).toNat by omega), ?_, ?_⟩
        · exact (show ns ≤ ((roundUpToPowerOfTwo ns).toNat : Int) by
            rw [hcast]; exact hle)
        · intro j hj hnsj
          exact (show (((roundUpToPowerOfTwo ns).toNat : Int)) ≤ 2 ^ j by
            rw [hcast]; exact hmin j hnsj hj)
  · intro t a ha
    rw [resizeTable_length, ha]
    ring

/-- C7 witness: `construct(5, 0.75f, 3)` gives capacity 8 and stripe count 4,
both powers of two with capacity the least one above 5. -/
theorem claim_C7_witness :
    (∃ a, (⟨List.replicate 8 [], 4, JFloat.fin 3 4, 0⟩ :
      StripedHashMap Nat Nat).table.length = 2 ^ a) ∧
    (5 : Int) ≤ ((⟨List.replicate 8 [], 4, JFloat.fin 3 4, 0⟩ :
      StripedHashMap Nat Nat).table.length : Int) :=
  ⟨((claim_C7_power_of_two_rounding (K := Nat) (V := Nat)).1 5 (JFloat.fin 3 4) 3 _
      (by decide) (by decide) (by decide)).1.1,
    (((claim_C7_power_of_two_rounding (K := Nat) (V := Nat)).1 5 (JFloat.fin 3 4) 3 _
      (by decide) (by decide) (by decide)).2.1 (by decide)).2.1⟩

/-- C8: on a well-formed map, `computeIfAbsent(k, f)` with `k` present
returns the stored value (exactly what `get` returns), leaves the map — and
hence `size()` — untouched and never invokes the generator; with `k` absent
it invokes the generator exactly once, returns `f(k)`, stores it under `k`
(so a subsequent `get` sees it), and grows `size()` by exactly one. -/
theorem claim_C8_computeIfAbsent (hashCode : K → Int)
    (m : StripedHashMap K V) (hWF : WF hashCode m) (k : K)
    (f : K → Option V) :
    (hasKey m k = true →
      computeIfAbsent hashCode (some k) f m = (get hashCode (some k) m, m, 0)) ∧
    (hasKey m k = false →
      (computeIfAbsent hashCode (some k) f m).1 = .ok (f k) ∧
      (computeIfAbsent hashCode (some k) f m).2.2 = 1 ∧
      (computeIfAbsent hashCode (some k) f m).2.1.size = m.size + 1 ∧
      get hashCode (some k) (computeIfAbsent hashCode (some k) f m).2.1 =
        .ok (f k)) :=
  ⟨fun hk => computeIfAbsent_found hashCode hWF f hk,
    fun hk => computeIfAbsent_absent hashCode hWF f hk⟩

/-- C8 witness, exercising both the present and the absent branch. -/
theorem claim_C8_witness :
    computeIfAbsent natHash (some 3) (fun n => some (n + 1)) (insertAll [3] m16) =
      (get natHash (some 3) (insertAll [3] m16), insertAll [3] m16, 0) ∧
    (computeIfAbsent natHash (some 7) (fun n => some (n + 1)) m16).2.2 = 1 :=
  ⟨(claim_C8_computeIfAbsent natHash (insertAll [3] m16) (by decide) 3
      (fun n => some (n + 1))).1 (by decide),
    ((claim_C8_computeIfAbsent natHash m16 (by decide) 7
      (fun n => some (n + 1))).2 (by decide)).2.1⟩

/-- C9: in a sequential execution, for any power-of-two capacity and stripe
count (in either order of magnitude), the traversal of `forEach` visits,
stripe by stripe, exactly the bucket indices congruent to the stripe modulo
`numStripes`, and over the whole run passes every live entry to the visitor
exactly once (the visit sequence is a permutation of the table contents). -/
theorem claim_C9_forEach_coverage (m : StripedHashMap K V) (a b : Nat)
    (hcap : m.table.length = 2 ^ a) (hns : m.numStripes = 2 ^ b) :
    (∀ s, s < m.numStripes → ∀ j,
      (j ∈ stripeIndices m.table.length m.numStripes s ↔
        j < m.table.length ∧ j % m.numStripes = s)) ∧
    (forEachVisits m).Perm (m.table.flatten.map fun n => (n.key, n.value)) := by
  have hpos : 0 < m.numStripes := by rw [hns]; positivity
  refine ⟨?_, forEachVisits_perm hpos⟩
  intro s hs j
  rw [stripeIndices_mem hpos]
  have hsmod : s % m.numStripes = s := Nat.mod_eq_of_lt hs
  constructor
  · rintro ⟨h1, h2, h3⟩
    exact ⟨h2, by rw [h3, hsmod]⟩
  · rintro ⟨h1, h2⟩
    refine ⟨?_, h1, by rw [hsmod]; exact h2⟩
    rw [← h2]
    exact Nat.mod_le j _

/-- C9 witness: capacity 8, two stripes, five entries spread over several
buckets. -/
theorem claim_C9_witness :
    (forEachVisits (insertAll [1, 2, 3, 9, 10]
        ⟨List.replicate 8 [], 2, JFloat.fin 3 4, 0⟩)).Perm
      ((insertAll [1, 2, 3, 9, 10]
        ⟨List.replicate 8 [], 2, JFloat.fin 3 4, 0⟩).table.flatten.map
          fun n => (n.key, n.value)) :=
  (claim_C9_forEach_coverage (insertAll [1, 2, 3, 9, 10]
    ⟨List.replicate 8 [], 2, JFloat.fin 3 4, 0⟩) 3 1 (by decide) (by decide)).2

/-- C10: a key present but mapped to the null value is reported absent by
`containsKey` (which tests `get(key) != null`) and by `get`, even though the
entry exists and is counted by `size()` (the size equals the number of live
entries, which is at least one). -/
theorem claim_C10_null_value_invisible (hashCode : K → Int)
    (m : StripedHashMap K V) (hWF : WF hashCode m) (k : K)
    (hentry : ∃ n ∈ m.table.flatten, n.key = k ∧ n.value = none) :
    containsKey hashCode (some k) m = .ok false ∧
    get hashCode (some k) m = .ok none ∧
    1 ≤ m.size ∧ m.size = (m.table.flatten.length : Int) := by
  obtain ⟨n, hn, hk, hv⟩ := hentry
  obtain ⟨hck, hg⟩ := containsKey_null_value hashCode hWF hn hk hv
  refine ⟨hck, hg, ?_, hWF.2.2.2.2⟩
  rw [hWF.2.2.2.2]
  have hpos : 0 < m.table.flatten.length :=
    List.length_pos.2 (List.ne_nil_of_mem hn)
  omega

/-- C10 witness: after `put(5, null)` the entry exists and is counted, yet
`containsKey(5)` is false. -/
theorem claim_C10_witness :
    containsKey natHash (some 5) (put natHash (some 5) none m16).2 = .ok false ∧
    1 ≤ (put natHash (some 5) none m16).2.size :=
  ⟨(claim_C10_null_value_invisible natHash (put natHash (some 5) none m16).2
      (by decide) 5 (by decide)).1,
    (claim_C10_null_value_invisible natHash (put natHash (some 5) none m16).2
      (by decide) 5 (by decide)).2.2.1⟩

end StripedHashMap

end DbCollections
